import Mathlib

/-!
# Verification of the twitter media downloader core

Shallow embedding of the media-acquisition pipeline of the repository
(`modules/twitter.py`, `modules/media.py`, `modules/utils.py`, `download.py`)
and proofs about it.  Python dictionaries become structures, optional dict
keys become `Option`, Python exceptions become `Except`, the file system and
the network become explicit oracles threaded through the functions.
-/

namespace TwitterDL

/-- Decidable equality for `Except`, used to evaluate results at concrete
inputs. -/
instance exceptDecEq {ε α : Type} [DecidableEq ε] [DecidableEq α] :
    DecidableEq (Except ε α) := fun
  | .error e, .error e' =>
    if h : e = e' then .isTrue (by rw [h])
    else .isFalse (by intro hc; injection hc with h2; exact h h2)
  | .error _, .ok _ => .isFalse (by intro hc; injection hc)
  | .ok _, .error _ => .isFalse (by intro hc; injection hc)
  | .ok a, .ok a' =>
    if h : a = a' then .isTrue (by rw [h])
    else .isFalse (by intro hc; injection hc with h2; exact h h2)

/-! ## Video variant selection (`modules/twitter.py`, `_handle_media_type_video`) -/

/-- One entry of `media['video_info']['variants']`: a dict with `content_type`,
`url` and an optional `bitrate` key (`none` models an absent key). -/
structure VideoVariant where
  content_type : String
  bitrate : Option Nat
  url : String
  deriving Repr, DecidableEq

/-- `media['video_info']` : dict with the `variants` list. -/
structure VideoInfo where
  variants : List VideoVariant
  deriving Repr, DecidableEq

/-- Python truthiness of `variant.get('bitrate')`: an absent key and the
value `0` are both falsy. -/
def bitrateTruthy (b : Option Nat) : Bool :=
  b.getD 0 != 0

/-- Numeric value used in the bitrate comparison `variant['bitrate'] >
highest['bitrate']`; on every path the code reaches the comparison only when
both keys are present, so reading the key is `getD 0`. -/
def bitrateVal (v : VideoVariant) : Nat :=
  v.bitrate.getD 0

/-- The `while variants_list and not highest_quality_variant.get('bitrate')`
loop of `_handle_media_type_video`.  `best` is the variant last popped,
`revRemaining` is the not-yet-popped part of the list, last element first
(`list.pop()` pops from the end).  Returns the loop's final `best` together
with what remains of the list, still reversed. -/
def popLoop : VideoVariant → List VideoVariant → VideoVariant × List VideoVariant
  | best, [] => (best, [])
  | best, v :: rest =>
    if bitrateTruthy best.bitrate then (best, v :: rest) else popLoop v rest

/-- The `for variant in variants_list` scan of `_handle_media_type_video`:
promote a candidate whenever it has a truthy bitrate strictly greater than
the current best's. -/
def scanLoop (best : VideoVariant) (l : List VideoVariant) : VideoVariant :=
  l.foldl (fun b v =>
    if bitrateTruthy v.bitrate && bitrateVal v > bitrateVal b then v else b) best

/-- `_handle_media_type_video`: pop the last variant as the initial best,
pop further while the best has no truthy bitrate, then scan the remaining
variants in original order for a strictly higher bitrate.  `list.pop()` on an
empty list raises `IndexError`, modelled as `.error`. -/
def handle_media_type_video (vi : VideoInfo) : Except String String :=
  match vi.variants.reverse with
  | [] => .error "IndexError: pop from empty list"
  | last :: restRev =>
    let (best, remRev) := popLoop last restRev
    .ok (scanLoop best remRev.reverse).url

/-! ## Filename building (`modules/media.py`, `_build_filename`) -/

/-- Decimal digit character, `0 ≤ n ≤ 9`. -/
def digitChar (n : Nat) : Char :=
  Char.ofNat (48 + n)

/-- Decimal digits, least significant first, with explicit fuel so the
recursion is structural (the fuel never runs out when started at `n`). -/
def natDigitsRevAux : Nat → Nat → List Char
  | _, 0 => []
  | 0, _ + 1 => []
  | fuel + 1, n + 1 => digitChar ((n + 1) % 10) :: natDigitsRevAux fuel ((n + 1) / 10)

/-- Decimal digits of `n`, least significant first (empty for `0`). -/
def natDigitsRev (n : Nat) : List Char :=
  natDigitsRevAux n n

/-- Decimal rendering of a natural number, as Python `str`/`%d` produce it. -/
def natDigits (n : Nat) : List Char :=
  if n = 0 then ['0'] else (natDigitsRev n).reverse

/-- Left-pad with `'0'` to width `w`, as `strftime`'s zero padding does. -/
def padZero (w : Nat) (s : List Char) : List Char :=
  List.replicate (w - s.length) '0' ++ s

/-- `tweet.created_at`, day precision (what `strftime('%Y-%m-%d')` reads). -/
structure Date where
  year : Nat
  month : Nat
  day : Nat
  deriving Repr, DecidableEq

/-- `datetime.strftime(created_at, "%Y-%m-%d")`: zero-padded
4-digit year and 2-digit month and day. -/
def strftimeYMD (d : Date) : List Char :=
  padZero 4 (natDigits d.year) ++ '-' :: (padZero 2 (natDigits d.month) ++ '-' :: padZero 2 (natDigits d.day))

/-- `tweet.user` (only the field the pipeline reads). -/
structure TwitterUser where
  screen_name : String
  deriving Repr, DecidableEq

/-- `media['video_info']` may be absent for non-video entries (`none` models
an absent dict key, whose direct access would raise `KeyError`). -/
structure MediaEntry where
  type : String
  media_url_https : String
  video_info : Option VideoInfo
  deriving Repr, DecidableEq

/-- `tweepy.models.Status`, restricted to the fields the pipeline reads.
`extended_entities = none` models the attribute being absent
(`hasattr(tweet, 'extended_entities')` false); `some l` models
`tweet.extended_entities['media'] = l`. -/
structure Tweet where
  id_str : String
  user : TwitterUser
  created_at : Date
  extended_entities : Option (List MediaEntry)
  deriving Repr, DecidableEq

/-- `_build_filename`: `f"{source_user}_{tweet_time}_{tweet_id}_{media_count}.{extension}"`. -/
def build_filename (tweet : Tweet) (media_count : Nat) (extension : String) : String :=
  tweet.user.screen_name ++ "_" ++ (strftimeYMD tweet.created_at).asString ++ "_"
    ++ tweet.id_str ++ "_" ++ (natDigits media_count).asString ++ "." ++ extension

/-! ## Filename parsing (`modules/utils.py`, `groupdict_from_filename`)

`FILENAME_REGEX` is
`(?P<account>\w+)_(?P<date>\d{4}-\d{2}-\d{2})_(?P<id>\d*)_(?P<media_count>\d).(?P<extension>\w+)`
matched with `re.match` (anchored at the start only, leftmost-greedy with
backtracking; note the unescaped `.` before the extension matches any
character other than a newline).  The matcher below is that exact pattern, specialised: the only
backtracking points are the two greedy groups `account` (`\w+`) and `id`
(`\d*`); both try the maximal munch first and give back one character at a
time, earlier groups having priority, exactly as the Python engine does. -/

/-- Python `\w` for the ASCII inputs this pipeline produces. -/
def isWordChar (c : Char) : Bool :=
  c.isAlphanum || c == '_'

/-- The named groups of `FILENAME_REGEX`, as `match.groupdict()` returns them. -/
structure FileGroups where
  account : String
  date : String
  id : String
  media_count : String
  extension : String
  deriving Repr, DecidableEq

/-- One attempt of the pattern tail `_(?P<media_count>\d).(?P<extension>\w+)`
against `rest`, with `revId` (reversed) as the current candidate for the
`id` group.  The unescaped `.` matches any character but a newline; the
final `\w+` is greedy with nothing after it, so it is a nonempty maximal
word run. -/
def idAttempt (revId rest : List Char) : Option (String × String × String) :=
  match rest with
  | '_' :: mc :: dot :: restExt =>
    if mc.isDigit && dot != '\n' then
      let ext := restExt.takeWhile isWordChar
      if ext.isEmpty then none
      else some (revId.reverse.asString, String.mk [mc], ext.asString)
    else none
  | _ => none

/-- Greedy loop for the `id` group (`\d*`) followed by the pattern tail,
applied to `revId.reverse ++ rest`: `revId` is the current (greedy)
candidate held reversed; on failure its last character is given back. -/
def idLoop : List Char → List Char → Option (String × String × String)
  | [], rest => idAttempt [] rest
  | c :: revId', rest =>
    match idAttempt (c :: revId') rest with
    | some g => some g
    | none => idLoop revId' (c :: rest)

/-- `(?P<date>\d{4}-\d{2}-\d{2})`: fixed-shape, no backtracking.  Returns the
ten matched characters and the rest of the input. -/
def matchDate (s : List Char) : Option (List Char × List Char) :=
  let y := s.take 4
  let r1 := s.drop 4
  if y.length == 4 && y.all Char.isDigit then
    match r1 with
    | '-' :: r2 =>
      let m := r2.take 2
      let r3 := r2.drop 2
      if m.length == 2 && m.all Char.isDigit then
        match r3 with
        | '-' :: r4 =>
          let d := r4.take 2
          let r5 := r4.drop 2
          if d.length == 2 && d.all Char.isDigit then
            some (y ++ '-' :: (m ++ '-' :: d), r5)
          else none
        | _ => none
      else none
    | _ => none
  else none

/-- Everything after the `account` group: `_date_id_mc.ext`.  `s` is the
input after the candidate account; it must start with `'_'`. -/
def afterAccount (s : List Char) : Option (String × String × String × String) :=
  match s with
  | '_' :: r =>
    match matchDate r with
    | none => none
    | some (date, r2) =>
      match r2 with
      | '_' :: r3 =>
        (idLoop (r3.takeWhile Char.isDigit).reverse (r3.dropWhile Char.isDigit)).map
          fun g => (date.asString, g)
      | _ => none
  | _ => none

/-- One attempt for the `account` group: the candidate `revAcc` (reversed)
must be nonempty (`\w+`) and the remainder must match the rest of the
pattern. -/
def accAttempt (revAcc rest : List Char) : Option FileGroups :=
  match revAcc with
  | [] => none
  | _ :: _ =>
    (afterAccount rest).map fun g =>
      ⟨revAcc.reverse.asString, g.1, g.2.1, g.2.2.1, g.2.2.2⟩

/-- Greedy loop for the `account` group (`\w+`): `revAcc` is the current
candidate reversed; on failure the last character is given back to `rest`. -/
def accountLoop : List Char → List Char → Option FileGroups
  | [], _ => none
  | c :: revAcc', rest =>
    match accAttempt (c :: revAcc') rest with
    | some g => some g
    | none => accountLoop revAcc' (c :: rest)

/-- `groupdict_from_filename`: `re.match(FILENAME_REGEX, filename)` followed by
`groupdict()`, raising `ValueError` when there is no match. -/
def groupdict_from_filename (filename : String) : Except String FileGroups :=
  let cs := filename.data
  match accountLoop (cs.takeWhile isWordChar).reverse (cs.dropWhile isWordChar) with
  | some g => .ok g
  | none => .error ("Failed to parse file " ++ filename)

/-! ## Media extraction (`modules/twitter.py`, `get_all_media_from_tweet`) -/

/-- `_handle_media_type_animated_gif`: `media['video_info']['variants'][0]`.
A missing `video_info` key raises `KeyError`, an empty variants list raises
`IndexError`. -/
def handle_media_type_animated_gif (media : MediaEntry) : Except String String :=
  match media.video_info with
  | none => .error "KeyError: video_info"
  | some vi =>
    match vi.variants with
    | [] => .error "IndexError: list index out of range"
    | v :: _ => .ok v.url

/-- Video dispatch of `get_all_media_from_tweet`:
`_handle_media_type_video(media)` reads `media['video_info']['variants']`. -/
def handle_video_entry (media : MediaEntry) : Except String String :=
  match media.video_info with
  | none => .error "KeyError: video_info"
  | some vi => handle_media_type_video vi

/-- The `for media in tweet.extended_entities['media']` loop of
`get_all_media_from_tweet`: dispatch on `media['type']`; unrecognized types
are logged and skipped (`continue`). -/
def mediaEntriesLoop : List MediaEntry → Except String (List (String × Bool))
  | [] => .ok []
  | media :: rest =>
    if media.type == "animated_gif" then
      match handle_media_type_animated_gif media with
      | .error e => .error e
      | .ok url => (mediaEntriesLoop rest).map (fun l => (url, false) :: l)
    else if media.type == "video" then
      match handle_video_entry media with
      | .error e => .error e
      | .ok url => (mediaEntriesLoop rest).map (fun l => (url, false) :: l)
    else if media.type == "photo" then
      (mediaEntriesLoop rest).map (fun l => (media.media_url_https, true) :: l)
    else
      mediaEntriesLoop rest

/-- `get_all_media_from_tweet`: empty list when the tweet has no
`extended_entities` attribute (only a warning is logged); otherwise the
URL/size-info pairs collected by the media loop. -/
def get_all_media_from_tweet (tweet : Tweet) : Except String (List (String × Bool)) :=
  match tweet.extended_entities with
  | none => .ok []
  | some medias => mediaEntriesLoop medias

/-! ## Paths and idempotency check (`modules/media.py`) -/

/-- The file-system oracle: `os.path.isdir`, `os.path.isfile`,
`os.path.getsize`. -/
structure FileSystem where
  isdir : String → Bool
  isfile : String → Bool
  getsize : String → Nat

/-- `os.path.join` for the relative components this code joins. -/
def pathJoin (a b : String) : String :=
  a ++ "/" ++ b

/-- The configuration values the download path logic reads
(`config.get_download_directory`). -/
structure Config where
  download_directory : String

/-- `urlparse(url).path`: strip `scheme://netloc`, cut at `'?'` or `'#'`.
Faithful for the absolute `http(s)` URLs this pipeline receives. -/
def urlparsePath (url : String) : List Char :=
  let cs := url.data
  let afterScheme :=
    if (cs.take 8 == "https://".data) then cs.drop 8
    else if (cs.take 7 == "http://".data) then cs.drop 7
    else []
  let path := afterScheme.dropWhile (fun c => c != '/')
  path.takeWhile (fun c => c != '?' && c != '#')

/-- `os.path.splitext(path)[1][1:]`: the extension of the last path
component, without the leading dot; empty when the basename has no dot or
only a leading dot. -/
def splitextExt (path : List Char) : List Char :=
  let base := (path.reverse.takeWhile (fun c => c != '/')).reverse
  if base.all (fun c => c != '.') then []
  else
    let afterDot := base.reverse.takeWhile (fun c => c != '.')
    let pre := (base.reverse.drop (afterDot.length + 1)).reverse
    if pre.any (fun c => c != '.') then afterDot.reverse else []

/-- `_get_file_extension_from_url`. -/
def get_file_extension_from_url (url : String) : String :=
  (splitextExt (urlparsePath url)).asString

/-- `_build_filepath`: validate the download directory, join the filename,
and compute the author-subdirectory alternate path when that subdirectory
exists (empty string otherwise).  A missing download directory raises
`DownloadFailed`. -/
def build_filepath (cfg : Config) (fs : FileSystem) (filename : String) (tweet : Tweet) :
    Except String (String × String) :=
  let directory := cfg.download_directory
  if !fs.isdir directory then
    .error ("Failed to validate path " ++ directory)
  else
    let download_filepath := pathJoin directory filename
    let username := tweet.user.screen_name
    let extra_path :=
      if fs.isdir (pathJoin directory username) then pathJoin (pathJoin directory username) filename
      else ""
    .ok (download_filepath, extra_path)

/-- `_check_file_already_on_disk`: false for the empty path or a non-file;
true only for an existing file of size greater than zero (a zero-byte file
is reported as not on disk so it gets downloaded again). -/
def check_file_already_on_disk (fs : FileSystem) (filepath : String) : Bool :=
  if filepath == "" || !fs.isfile filepath then false
  else if fs.getsize filepath > 0 then true
  else false

/-- `_write_to_disk`: the file at `filepath` now exists with the content's
size (write mode `wb` truncates). -/
def write_to_disk (fs : FileSystem) (filepath : String) (content : List Nat) : FileSystem :=
  { fs with
    isfile := fun p => p == filepath || fs.isfile p
    getsize := fun p => if p == filepath then content.length else fs.getsize p }

/-! ## Download executor (`modules/media.py`, `download_media`)

The network is an oracle `net : String → Option (List Nat)`; `none` models
`_download_url` exhausting its retries and re-raising `DownloadFailed` (the
retry loop itself is modelled separately below).  Besides the Python result
the model returns the list of URLs actually fetched and the final file
system, so that "no network call was issued" is a statement about the run. -/

/-- The `for index, (url, requires_size_info) in enumerate(urls_list)` loop
of `download_media`.  Returns (result, fetched URLs, final file system). -/
def dmLoop (net : String → Option (List Nat)) (cfg : Config) (tweet : Tweet)
    (force_download : Bool) :
    List (String × Bool) → Nat → Nat → List String → FileSystem →
    Except String (Nat × Bool) × List String × FileSystem
  | [], _, count, log, fs => (.ok (count, true), log, fs)
  | (url, requires_size_info) :: rest, index, count, log, fs =>
    let extension := get_file_extension_from_url url
    let dst_filename := build_filename tweet (index + 1) extension
    match build_filepath cfg fs dst_filename tweet with
    | .error e => (.error e, log, fs)
    | .ok (dst_filepath, extra_filepath) =>
      if !force_download &&
          (check_file_already_on_disk fs extra_filepath
            || check_file_already_on_disk fs dst_filepath) then
        (.ok (0, true), log, fs)
      else
        let url' := if requires_size_info then
            url ++ "?format=" ++ extension ++ "&name=large"
          else url
        match net url' with
        | none => (.error "DownloadFailed", log ++ [url'], fs)
        | some content =>
          dmLoop net cfg tweet force_download rest (index + 1) (count + 1)
            (log ++ [url']) (write_to_disk fs dst_filepath content)

/-- `download_media`: extract the media URLs; `(0, False)` when the list is
empty; otherwise run the download loop. -/
def download_media (fs : FileSystem) (net : String → Option (List Nat)) (cfg : Config)
    (tweet : Tweet) (force_download : Bool := false) :
    Except String (Nat × Bool) × List String × FileSystem :=
  match get_all_media_from_tweet tweet with
  | .error e => (.error e, [], fs)
  | .ok urls_list =>
    if urls_list.isEmpty then (.ok (0, false), [], fs)
    else dmLoop net cfg tweet force_download urls_list 0 0 [] fs

/-! ## Blacklist lifecycle (`modules/twitter.py`) -/

/-- The state of the blacklist file on disk: absent, unreadable, unparsable
YAML, parsable but missing the `blacklisted_ids` key, or present with a list
of IDs. -/
inductive BlacklistFile
  | absent
  | ioError
  | yamlError
  | missingKey
  | present (ids : List String)
  deriving Repr, DecidableEq

/-- `_load_blacklisted_tweets_file`: read the IDs; on `FileNotFoundError`
create a default (empty) blacklist file and return `[]`; IO, YAML and
missing-key failures re-raise.  Returns the loaded IDs together with the
file state after the call. -/
def load_blacklisted_tweets_file : BlacklistFile → Except String (List String × BlacklistFile)
  | .absent => .ok ([], .present [])
  | .ioError => .error "IOError"
  | .yamlError => .error "YAMLError"
  | .missingKey => .error "KeyError: blacklisted_ids"
  | .present ids => .ok (ids, .present ids)

/-- The `for tweet in tweets_list` loop of `filter_blacklisted_tweets`:
keep a tweet unless its `id_str` is in the blacklist. -/
def filterTweetsLoop (blacklisted_tweets : List String) : List Tweet → List Tweet
  | [] => []
  | tweet :: rest =>
    if tweet.id_str ∈ blacklisted_tweets then filterTweetsLoop blacklisted_tweets rest
    else tweet :: filterTweetsLoop blacklisted_tweets rest

/-- `filter_blacklisted_tweets`: load the blacklist (creating the file when
absent) and drop the blacklisted tweets.  Returns the surviving tweets and
the blacklist file state after the call. -/
def filter_blacklisted_tweets (file : BlacklistFile) (tweets_list : List Tweet) :
    Except String (List Tweet × BlacklistFile) :=
  (load_blacklisted_tweets_file file).map fun p =>
    (filterTweetsLoop p.1 tweets_list, p.2)

/-- `update_tweets_blacklist`: prune the previous entries down to the IDs
still present in the fetched feed, skip the write when nothing was pruned
and there are no new entries, otherwise write `set(valid + new)`.  Returns
the file state after the call and whether a write happened. -/
def update_tweets_blacklist (file : BlacklistFile) (new_blacklisted_tweets : List String)
    (tweets_list : List Tweet) : Except String (BlacklistFile × Bool) :=
  let tweet_ids_set := tweets_list.map Tweet.id_str
  match load_blacklisted_tweets_file file with
  | .error e => .error e
  | .ok (previous_blacklisted_tweets, file₁) =>
    let valid_blacklisted_tweets :=
      previous_blacklisted_tweets.filter (fun t => t ∈ tweet_ids_set)
    if new_blacklisted_tweets.isEmpty
        && valid_blacklisted_tweets.length == previous_blacklisted_tweets.length then
      .ok (file₁, false)
    else
      let full_blacklist := (valid_blacklisted_tweets ++ new_blacklisted_tweets).dedup
      .ok (.present full_blacklist, true)

/-! ## Per-run aggregation (`download.py`, `main`)

The `media.download_media` call is abstracted as a per-tweet oracle
`dm : Tweet → Except String (Nat × Bool)` (in the script it is the function
above, closed over the evolving disk and the network).  The loop mirrors
lines 45–53: count a tweet as downloaded when its media count is positive,
and record its ID as newly blacklisted when no media was found and
blacklisting is enabled.  An exception from `download_media` propagates. -/

def mainProcessLoop (dm : Tweet → Except String (Nat × Bool)) (disable_blacklist : Bool) :
    List Tweet → Nat → Nat → List String →
    Except String (Nat × Nat × List String)
  | [], downloaded_tweets, downloaded_media_count, new_blacklisted_tweets =>
    .ok (downloaded_tweets, downloaded_media_count, new_blacklisted_tweets)
  | tweet :: rest, downloaded_tweets, downloaded_media_count, new_blacklisted_tweets =>
    match dm tweet with
    | .error e => .error e
    | .ok (tweet_media_count, media_found) =>
      if tweet_media_count > 0 then
        mainProcessLoop dm disable_blacklist rest (downloaded_tweets + 1)
          (downloaded_media_count + tweet_media_count) new_blacklisted_tweets
      else if !media_found && !disable_blacklist then
        mainProcessLoop dm disable_blacklist rest downloaded_tweets
          downloaded_media_count (new_blacklisted_tweets ++ [tweet.id_str])
      else
        mainProcessLoop dm disable_blacklist rest downloaded_tweets
          downloaded_media_count new_blacklisted_tweets

/-! ## Bounded retry (`modules/media.py`, `_download_url`)

`tenacity.retry(stop=(stop_after_attempt(5) | stop_after_delay(60)),
wait=wait_fixed(3), retry=retry_if_exception_type(DownloadFailed),
reraise=True)`.  Time is modelled by an oracle `dur n` giving the duration
of the `n`-th attempt; after a failed attempt the stop conditions are
checked against the attempt number and the elapsed wall-clock time, and a
fixed 3-second sleep separates attempts.  `attempt n` is the outcome of the
`n`-th call (1-based); an `.error` models a raised `DownloadFailed`.
The `fuel` argument only bounds the recursion; started with `4`, it is
never exhausted before `stop_after_attempt(5)` fires. -/

def retryLoop (attempt : Nat → Except String (List Nat)) (dur : Nat → Nat) :
    Nat → Nat → Nat → Except String (List Nat) × Nat × Nat
  | fuel, n, elapsed =>
    let t := elapsed + dur n
    match attempt n with
    | .ok b => (.ok b, n, t)
    | .error e =>
      if n ≥ 5 ∨ t ≥ 60 then (.error e, n, t)
      else
        match fuel with
        | 0 => (.error e, n, t)
        | fuel' + 1 => retryLoop attempt dur fuel' (n + 1) (t + 3)

/-- The decorated `_download_url` as seen by its caller: attempts start at 1
with no time elapsed; the result carries the number of attempts made and the
total elapsed time (attempt durations plus 3-second waits). -/
def download_url_retry (attempt : Nat → Except String (List Nat)) (dur : Nat → Nat) :
    Except String (List Nat) × Nat × Nat :=
  retryLoop attempt dur 4 1 0

/-! ## General helper lemmas -/

theorem takeWhile_append_all {α : Type} (p : α → Bool) (l₁ l₂ : List α)
    (h : ∀ x ∈ l₁, p x = true) :
    (l₁ ++ l₂).takeWhile p = l₁ ++ l₂.takeWhile p := by
  induction l₁ with
  | nil => simp
  | cons a l ih =>
    have ha : p a = true := h a (List.mem_cons_self a l)
    simp [List.takeWhile_cons, ha, ih (fun x hx => h x (List.mem_cons_of_mem a hx))]

theorem dropWhile_append_all {α : Type} (p : α → Bool) (l₁ l₂ : List α)
    (h : ∀ x ∈ l₁, p x = true) :
    (l₁ ++ l₂).dropWhile p = l₂.dropWhile p := by
  induction l₁ with
  | nil => simp
  | cons a l ih =>
    have ha : p a = true := h a (List.mem_cons_self a l)
    simp [List.dropWhile_cons, ha, ih (fun x hx => h x (List.mem_cons_of_mem a hx))]

theorem length_filter_eq_iff {α : Type} (p : α → Bool) (l : List α) :
    (l.filter p).length = l.length ↔ ∀ x ∈ l, p x = true := by
  induction l with
  | nil => simp
  | cons a l ih =>
    by_cases ha : p a = true
    · simp [List.filter_cons, ha, ih]
    · simp only [List.filter_cons, ha, if_neg, Bool.false_eq_true, ite_false]
      constructor
      · intro h
        exact absurd h (by
          have := List.length_filter_le p l
          simp only [List.length_cons]
          omega)
      · intro h
        exact absurd (h a (List.mem_cons_self a l)) ha

/-! ## C8: zero-byte files are not treated as already downloaded -/

/-- Fetch-log monotonicity of the download loop: the accumulated log is a
prefix of the final log. -/
theorem dmLoop_log_mono (net : String → Option (List Nat)) (cfg : Config) (tweet : Tweet)
    (force : Bool) (urls : List (String × Bool)) :
    ∀ idx cnt log fs, ∃ tail,
      (dmLoop net cfg tweet force urls idx cnt log fs).2.1 = log ++ tail := by
  induction urls with
  | nil => intro idx cnt log fs; exact ⟨[], by simp [dmLoop]⟩
  | cons u rest ih =>
    intro idx cnt log fs
    obtain ⟨url, rsi⟩ := u
    simp only [dmLoop]
    cases hbp : build_filepath cfg fs (build_filename tweet (idx + 1)
        (get_file_extension_from_url url)) tweet with
    | error e => exact ⟨[], by simp⟩
    | ok dsts =>
      obtain ⟨dst, extra⟩ := dsts
      by_cases hchk : (!force && (check_file_already_on_disk fs extra
          || check_file_already_on_disk fs dst)) = true
      · simp only [hchk, if_true]
        exact ⟨[], by simp⟩
      · simp only [Bool.not_eq_true] at hchk
        simp only [hchk, Bool.false_eq_true, if_false]
        set url' := if rsi then url ++ "?format=" ++ get_file_extension_from_url url
            ++ "&name=large" else url with hurl'
        cases hnet : net url' with
        | none => exact ⟨[url'], rfl⟩
        | some content =>
          obtain ⟨tail, htail⟩ := ih (idx + 1) (cnt + 1) (log ++ [url'])
            (write_to_disk fs dst content)
          exact ⟨[url'] ++ tail, by rw [htail, List.append_assoc]⟩

/-- C8: a file that exists but has size 0 bytes is never treated as already
downloaded — `_check_file_already_on_disk` returns false for it, and
processing of such a descriptor proceeds to a real download attempt (the
descriptor's URL is fetched) instead of short-circuiting. -/
theorem c8_zero_byte_self_healing :
    (∀ (fs : FileSystem) (p : String), fs.isfile p = true → fs.getsize p = 0 →
      check_file_already_on_disk fs p = false)
    ∧ (∀ (fs : FileSystem) (net : String → Option (List Nat)) (cfg : Config) (tweet : Tweet)
        (url : String) (rsi : Bool) (rest : List (String × Bool)) (dst extra : String),
        get_all_media_from_tweet tweet = .ok ((url, rsi) :: rest) →
        build_filepath cfg fs (build_filename tweet 1 (get_file_extension_from_url url))
          tweet = .ok (dst, extra) →
        check_file_already_on_disk fs extra = false →
        check_file_already_on_disk fs dst = false →
        (download_media fs net cfg tweet false).2.1.head? =
          some (if rsi then
              url ++ "?format=" ++ get_file_extension_from_url url ++ "&name=large"
            else url)) := by
  constructor
  · intro fs p hfile hsize
    simp [check_file_already_on_disk, hfile, hsize]
  · intro fs net cfg tweet url rsi rest dst extra hurls hbp hextra hdst
    simp only [download_media, hurls, List.isEmpty_cons, Bool.false_eq_true, if_false]
    simp only [dmLoop, Nat.zero_add, hbp, hextra, hdst, Bool.or_self, Bool.and_false,
      Bool.false_eq_true, if_false]
    set url' := if rsi then url ++ "?format=" ++ get_file_extension_from_url url
        ++ "&name=large" else url with hurl'
    cases hnet : net url' with
    | none => rfl
    | some content =>
      show (dmLoop net cfg tweet false rest 1 1 ([] ++ [url'])
        (write_to_disk fs dst content)).2.1.head? = some url'
      obtain ⟨tail, htail⟩ := dmLoop_log_mono net cfg tweet false rest 1 1 ([] ++ [url'])
        (write_to_disk fs dst content)
      rw [htail]
      rfl

/-- Concrete file system with a single zero-byte file. -/
def fsZeroByte : FileSystem :=
  ⟨fun _ => false, fun _ => true, fun _ => 0⟩

/-- Concrete file system for the download-attempt half of C8: the download
directory exists, nothing else does. -/
def fsDirOnly : FileSystem :=
  ⟨fun p => p == "dl", fun _ => false, fun _ => 0⟩

/-- Concrete single-photo tweet. -/
def tweetPhoto : Tweet :=
  ⟨"7", ⟨"u"⟩, ⟨2020, 1, 1⟩, some [⟨"photo", "https://h/p.jpg", none⟩]⟩

/-- Witness for C8 at concrete inputs: the zero-byte check returns false,
and the lone photo descriptor's URL is really fetched. -/
theorem c8_zero_byte_self_healing_witness :
    check_file_already_on_disk fsZeroByte "f" = false
    ∧ (download_media fsDirOnly (fun _ => none) ⟨"dl"⟩ tweetPhoto false).2.1.head? =
        some "https://h/p.jpg?format=jpg&name=large" := by
  refine ⟨c8_zero_byte_self_healing.1 fsZeroByte "f" rfl rfl, ?_⟩
  have h := c8_zero_byte_self_healing.2 fsDirOnly (fun _ => none) ⟨"dl"⟩ tweetPhoto
    "https://h/p.jpg" true [] "dl/u_2020-01-01_7_1.jpg" "" (by decide) (by decide)
    (by decide) (by decide)
  simpa using h

/-! ## C10: blacklist filtering -/

/-- The filtering loop is `List.filter` on "identifier not blacklisted". -/
theorem filterTweetsLoop_eq_filter (bl : List String) (l : List Tweet) :
    filterTweetsLoop bl l = l.filter (fun t => decide (t.id_str ∉ bl)) := by
  induction l with
  | nil => rfl
  | cons t rest ih =>
    by_cases h : t.id_str ∈ bl <;>
      simp [filterTweetsLoop, h, List.filter_cons, ih]

/-- C10: filtering returns exactly the posts whose identifier is not in the
blacklist, in their original relative order (a sublist of the input); when
the blacklist file is absent, an empty blacklist file is created and the
filter returns the input unchanged. -/
theorem c10_filter_blacklisted (bl : List String) (tweets : List Tweet) :
    (filter_blacklisted_tweets (.present bl) tweets =
        .ok (tweets.filter (fun t => decide (t.id_str ∉ bl)), .present bl))
    ∧ (tweets.filter (fun t => decide (t.id_str ∉ bl))).Sublist tweets
    ∧ (∀ t, t ∈ tweets.filter (fun t => decide (t.id_str ∉ bl)) ↔
        t ∈ tweets ∧ t.id_str ∉ bl)
    ∧ filter_blacklisted_tweets .absent tweets = .ok (tweets, .present []) := by
  refine ⟨?_, List.filter_sublist tweets, ?_, ?_⟩
  · simp [filter_blacklisted_tweets, load_blacklisted_tweets_file, Except.map,
      filterTweetsLoop_eq_filter]
  · intro t; simp [List.mem_filter]
  · simp only [filter_blacklisted_tweets, load_blacklisted_tweets_file, Except.map]
    rw [filterTweetsLoop_eq_filter]
    simp

/-! ## C2: blacklist reconciliation -/

/-- C2: reconciliation produces exactly (previous ∩ fetched) ∪ newEntries,
and the persistence write is skipped precisely when there are no new entries
and no previous entry was pruned. -/
theorem c2_blacklist_reconciliation (prev new : List String) (tweets : List Tweet) :
    ∃ (merged : List String) (wrote : Bool),
      update_tweets_blacklist (.present prev) new tweets = .ok (.present merged, wrote)
      ∧ (∀ x, x ∈ merged ↔
          (x ∈ prev ∧ x ∈ tweets.map Tweet.id_str) ∨ x ∈ new)
      ∧ (wrote = false ↔ new = [] ∧ ∀ t ∈ prev, t ∈ tweets.map Tweet.id_str) := by
  simp only [update_tweets_blacklist, load_blacklisted_tweets_file]
  set ids := tweets.map Tweet.id_str with hids
  by_cases hskip : (new.isEmpty && (prev.filter (fun t => decide (t ∈ ids))).length
      == prev.length) = true
  · obtain ⟨hnew, hlen⟩ := Bool.and_eq_true_iff.mp hskip
    have hnew' : new = [] := List.isEmpty_iff.mp hnew
    have hall : ∀ t ∈ prev, t ∈ ids := by
      have := (length_filter_eq_iff (fun t => decide (t ∈ ids)) prev).mp
        (Nat.beq_eq_true_eq _ _ ▸ hlen)
      intro t ht
      exact of_decide_eq_true (this t ht)
    refine ⟨prev, false, by simp [hskip], ?_, ?_⟩
    · intro x
      constructor
      · intro hx; exact Or.inl ⟨hx, hall x hx⟩
      · rintro (⟨hx, _⟩ | hx)
        · exact hx
        · rw [hnew'] at hx; cases hx
    · exact ⟨fun _ => ⟨hnew', hall⟩, fun _ => rfl⟩
  · refine ⟨(prev.filter (fun t => decide (t ∈ ids)) ++ new).dedup, true, ?_, ?_, ?_⟩
    · simp [hskip]
    · intro x
      simp [List.mem_dedup, List.mem_filter]
    · simp only [Bool.true_eq_false, false_iff]
      intro ⟨hnew', hall⟩
      apply hskip
      rw [hnew']
      simp only [List.isEmpty_nil, Bool.true_and]
      exact Nat.beq_eq_true_eq _ _ |>.mpr
        ((length_filter_eq_iff _ prev).mpr (fun x hx => decide_eq_true (hall x hx)))

/-! ## C7: blacklist eligibility of processed posts -/

/-- Soundness of the accumulator of `main`'s processing loop: every recorded
ID was either already in the accumulator or comes from a tweet whose
download outcome was (0 media, media not found), with blacklisting
enabled. -/
theorem mainProcessLoop_newBl_sound (dm : Tweet → Except String (Nat × Bool))
    (disable : Bool) :
    ∀ (tweets : List Tweet) (a b : Nat) (acc : List String)
      (res : Nat × Nat × List String),
      mainProcessLoop dm disable tweets a b acc = .ok res →
      ∀ id ∈ res.2.2,
        id ∈ acc ∨ (disable = false ∧ ∃ t ∈ tweets, t.id_str = id ∧ dm t = .ok (0, false)) := by
  intro tweets
  induction tweets with
  | nil =>
    intro a b acc res h id hid
    simp only [mainProcessLoop, Except.ok.injEq] at h
    subst h
    exact Or.inl hid
  | cons t rest ih =>
    intro a b acc res h id hid
    simp only [mainProcessLoop] at h
    cases hdm : dm t with
    | error e => rw [hdm] at h; cases h
    | ok p =>
      obtain ⟨cnt, found⟩ := p
      rw [hdm] at h
      by_cases hcnt : cnt > 0
      · simp only [hcnt, if_true] at h
        rcases ih _ _ _ _ h id hid with hacc | ⟨hd, t', ht', hrest⟩
        · exact Or.inl hacc
        · exact Or.inr ⟨hd, t', List.mem_cons_of_mem t ht', hrest⟩
      · simp only [hcnt, if_false] at h
        by_cases hbl : (!found && !disable) = true
        · simp only [hbl, if_true] at h
          rcases ih _ _ _ _ h id hid with hacc | ⟨hd, t', ht', hrest⟩
          · rcases List.mem_append.mp hacc with hacc | hone
            · exact Or.inl hacc
            · obtain ⟨hf, hd⟩ := Bool.and_eq_true_iff.mp hbl
              have hfound : found = false := by
                cases found <;> simp at hf ⊢
              have hdis : disable = false := by
                cases disable <;> simp at hd ⊢
              have hcnt0 : cnt = 0 := by omega
              refine Or.inr ⟨hdis, t, List.mem_cons_self t rest, ?_, ?_⟩
              · have := List.mem_singleton.mp hone
                exact this.symm
              · rw [hdm, hcnt0, hfound]
          · exact Or.inr ⟨hd, t', List.mem_cons_of_mem t ht', hrest⟩
        · simp only [hbl, if_false] at h
          rcases ih _ _ _ _ h id hid with hacc | ⟨hd, t', ht', hrest⟩
          · exact Or.inl hacc
          · exact Or.inr ⟨hd, t', List.mem_cons_of_mem t ht', hrest⟩

/-- C7: a post identifier is recorded for blacklisting only when its
download outcome was `(0, mediaFound := false)` with blacklisting enabled;
consequently every entry written by the subsequent blacklist update either
survives from the previous blacklist or was confirmed media-less in this
run. -/
theorem c7_blacklist_eligibility (dm : Tweet → Except String (Nat × Bool))
    (disable : Bool) (tweets : List Tweet) (dt dmc : Nat) (newBl : List String)
    (h : mainProcessLoop dm disable tweets 0 0 [] = .ok (dt, dmc, newBl)) :
    (∀ id ∈ newBl,
      disable = false ∧ ∃ t ∈ tweets, t.id_str = id ∧ dm t = .ok (0, false))
    ∧ (∀ (prev : List String) (res : BlacklistFile × Bool),
        update_tweets_blacklist (.present prev) newBl tweets = .ok res →
        ∀ l, res.1 = .present l →
          ∀ x ∈ l, x ∈ prev ∨ ∃ t ∈ tweets, t.id_str = x ∧ dm t = .ok (0, false)) := by
  have hsound : ∀ id ∈ newBl,
      disable = false ∧ ∃ t ∈ tweets, t.id_str = id ∧ dm t = .ok (0, false) := by
    intro id hid
    rcases mainProcessLoop_newBl_sound dm disable tweets 0 0 [] (dt, dmc, newBl) h id hid with
      hacc | hgood
    · cases hacc
    · exact hgood
  refine ⟨hsound, ?_⟩
  intro prev res hupd l hl x hx
  simp only [update_tweets_blacklist, load_blacklisted_tweets_file] at hupd
  by_cases hskip : (newBl.isEmpty && ((prev.filter
      (fun t => decide (t ∈ tweets.map Tweet.id_str))).length == prev.length)) = true
  · simp only [hskip, if_true, Except.ok.injEq] at hupd
    subst hupd
    simp only at hl
    injection hl with hl
    subst hl
    exact Or.inl hx
  · simp only [hskip, Bool.false_eq_true, if_false, Except.ok.injEq] at hupd
    subst hupd
    simp only at hl
    injection hl with hl
    subst hl
    rcases List.mem_append.mp (List.mem_dedup.mp hx) with hf | hnew
    · exact Or.inl (List.mem_filter.mp hf).1
    · exact Or.inr ((hsound x hnew).2)

/-- Oracle for the C7 witness: every tweet reports no media found. -/
def dmAlwaysNoMedia : Tweet → Except String (Nat × Bool) :=
  fun _ => .ok (0, false)

/-- Concrete tweet without a media section. -/
def tweetNoMedia : Tweet :=
  ⟨"9", ⟨"u"⟩, ⟨2020, 1, 1⟩, none⟩

/-- Witness for C7: the one processed tweet that was recorded for
blacklisting indeed had outcome `(0, false)`. -/
theorem c7_blacklist_eligibility_witness :
    ∃ t ∈ [tweetNoMedia], t.id_str = "9" ∧ dmAlwaysNoMedia t = .ok (0, false) :=
  (((c7_blacklist_eligibility dmAlwaysNoMedia false [tweetNoMedia] 0 0 ["9"] rfl).1)
    "9" (by simp)).2

/-! ## C6: bounded retry of transient download failures -/

/-- Wall-clock time elapsed right after the `m`-th attempt: the attempt
durations plus the fixed 3-second waits between attempts. -/
def elapsedAfter (dur : Nat → Nat) (m : Nat) : Nat :=
  (∑ i ∈ Finset.range m, dur (i + 1)) + 3 * (m - 1)

/-- Unfolding of one failing iteration of the retry loop. -/
theorem retryLoop_err (attempt : Nat → Except String (List Nat)) (dur : Nat → Nat)
    (fuel n elapsed : Nat) (e : String) (he : attempt n = .error e) :
    retryLoop attempt dur fuel n elapsed =
      if n ≥ 5 ∨ elapsed + dur n ≥ 60 then (.error e, n, elapsed + dur n)
      else
        match fuel with
        | 0 => (.error e, n, elapsed + dur n)
        | fuel' + 1 => retryLoop attempt dur fuel' (n + 1) (elapsed + dur n + 3) := by
  cases fuel with
  | zero =>
    conv_lhs => rw [retryLoop]
    rw [he]
  | succ f =>
    conv_lhs => rw [retryLoop]
    rw [he]

/-- Elapsed-time recurrence: the time right after attempt `n` is the time
accumulated before it plus the attempt's duration. -/
theorem elapsedAfter_step (dur : Nat → Nat) (n : Nat) (hn : 1 ≤ n) :
    (∑ i ∈ Finset.range (n - 1), dur (i + 1)) + 3 * (n - 1) + dur n =
      elapsedAfter dur n := by
  rw [elapsedAfter]
  have hrw : n = (n - 1) + 1 := by omega
  rw [hrw, Finset.sum_range_succ, ← hrw]
  omega

/-- Invariant-carrying specification of the retry loop for an
always-failing call. -/
theorem retryLoop_spec (attempt : Nat → Except String (List Nat)) (dur : Nat → Nat)
    (hfail : ∀ n, ∃ e, attempt n = .error e) :
    ∀ (fuel n elapsed : Nat), 1 ≤ n → n + fuel = 5 →
      elapsed = (∑ i ∈ Finset.range (n - 1), dur (i + 1)) + 3 * (n - 1) →
      n ≤ (retryLoop attempt dur fuel n elapsed).2.1
      ∧ (retryLoop attempt dur fuel n elapsed).2.1 ≤ 5
      ∧ (retryLoop attempt dur fuel n elapsed).1 =
          attempt (retryLoop attempt dur fuel n elapsed).2.1
      ∧ (∀ m, n ≤ m → m < (retryLoop attempt dur fuel n elapsed).2.1 →
          elapsedAfter dur m < 60)
      ∧ (retryLoop attempt dur fuel n elapsed).2.2 =
          elapsedAfter dur (retryLoop attempt dur fuel n elapsed).2.1 := by
  intro fuel
  induction fuel with
  | zero =>
    intro n elapsed hn hfuel helapsed
    have hn5 : n = 5 := by omega
    subst hn5
    obtain ⟨e, he⟩ := hfail 5
    have hsum : elapsed + dur 5 = elapsedAfter dur 5 := by
      rw [helapsed]
      exact elapsedAfter_step dur 5 (by omega)
    rw [retryLoop_err attempt dur 0 5 elapsed e he, if_pos (Or.inl (by omega))]
    dsimp only
    exact ⟨le_refl 5, le_refl 5, he.symm, fun m hm1 hm2 => absurd hm2 (by omega), hsum⟩
  | succ fuel ih =>
    intro n elapsed hn hfuel helapsed
    obtain ⟨e, he⟩ := hfail n
    have hn4 : n ≤ 4 := by omega
    have hsum : elapsed + dur n = elapsedAfter dur n := by
      rw [helapsed]
      exact elapsedAfter_step dur n hn
    rw [retryLoop_err attempt dur (fuel + 1) n elapsed e he]
    by_cases ht : elapsed + dur n ≥ 60
    · rw [if_pos (Or.inr ht)]
      dsimp only
      refine ⟨le_refl n, by omega, he.symm, ?_, hsum⟩
      intro m hm1 hm2
      exact absurd hm2 (by omega)
    · rw [if_neg (by rintro (h | h) <;> omega)]
      have hrw : n = (n - 1) + 1 := by omega
      have hstep : (∑ i ∈ Finset.range n, dur (i + 1)) =
          (∑ i ∈ Finset.range (n - 1), dur (i + 1)) + dur n := by
        conv_lhs => rw [hrw, Finset.sum_range_succ, ← hrw]
      have helapsed' : elapsed + dur n + 3 =
          (∑ i ∈ Finset.range ((n + 1) - 1), dur (i + 1)) + 3 * ((n + 1) - 1) := by
        rw [show (n + 1) - 1 = n from rfl, hstep, helapsed]
        omega
      obtain ⟨ih1, ih2, ih3, ih4, ih5⟩ := ih (n + 1) (elapsed + dur n + 3)
        (by omega) (by omega) helapsed'
      dsimp only
      refine ⟨by omega, ih2, ih3, ?_, ih5⟩
      intro m hm1 hm2
      rcases Nat.eq_or_lt_of_le hm1 with hmn | hmn
      · subst hmn
        omega
      · exact ih4 m hmn hm2

/-- C6: for a fetch that always fails transiently, `_download_url` makes at
most 5 attempts; it continues past an attempt only while fewer than 5
attempts were made and fewer than 60 seconds (attempt durations plus the
fixed 3-second waits) have elapsed, whichever limit is reached first; and
after exhausting retries the original failure (the last attempt's
`DownloadFailed`) is re-raised to the caller. -/
theorem c6_retry_policy (attempt : Nat → Except String (List Nat)) (dur : Nat → Nat)
    (hfail : ∀ n, ∃ e, attempt n = .error e) :
    1 ≤ (download_url_retry attempt dur).2.1
    ∧ (download_url_retry attempt dur).2.1 ≤ 5
    ∧ (download_url_retry attempt dur).1 = attempt (download_url_retry attempt dur).2.1
    ∧ (∃ e, (download_url_retry attempt dur).1 = .error e)
    ∧ (∀ m, 1 ≤ m → m < (download_url_retry attempt dur).2.1 →
        m < 5 ∧ elapsedAfter dur m < 60)
    ∧ (download_url_retry attempt dur).2.2 =
        elapsedAfter dur (download_url_retry attempt dur).2.1 := by
  obtain ⟨h1, h2, h3, h4, h5⟩ := retryLoop_spec attempt dur hfail 4 1 0 (le_refl 1)
    (by omega) (by simp)
  simp only [download_url_retry]
  refine ⟨h1, h2, h3, ?_, ?_, h5⟩
  · obtain ⟨e, he⟩ := hfail (retryLoop attempt dur 4 1 0).2.1
    exact ⟨e, by rw [h3, he]⟩
  · intro m hm1 hm2
    exact ⟨by omega, h4 m hm1 hm2⟩

/-- Always-failing fetch oracle for the C6 witness. -/
def attemptFailC6 : Nat → Except String (List Nat) :=
  fun _ => .error "boom"

/-- Instantaneous attempts for the C6 witness. -/
def durZeroC6 : Nat → Nat :=
  fun _ => 0

/-- Witness for C6: with an always-failing fetch the loop stops within 5
attempts, re-raises the last failure, and accounts the waits. -/
theorem c6_retry_policy_witness :
    (1 ≤ (download_url_retry attemptFailC6 durZeroC6).2.1
      ∧ (download_url_retry attemptFailC6 durZeroC6).2.1 ≤ 5)
    ∧ (download_url_retry attemptFailC6 durZeroC6).1 =
        attemptFailC6 (download_url_retry attemptFailC6 durZeroC6).2.1
    ∧ (download_url_retry attemptFailC6 durZeroC6).2.2 =
        elapsedAfter durZeroC6 (download_url_retry attemptFailC6 durZeroC6).2.1 :=
  have h := c6_retry_policy attemptFailC6 durZeroC6 (fun _ => ⟨"boom", rfl⟩)
  ⟨⟨h.1, h.2.1⟩, h.2.2.1, h.2.2.2.2.2⟩

/-! ## C5: when the mediaFound flag is false -/

/-- Once the descriptor list is non-empty, every non-exceptional result of
the download loop reports `mediaFound = true`. -/
theorem dmLoop_ok_found_true (net : String → Option (List Nat)) (cfg : Config)
    (tweet : Tweet) (force : Bool) (urls : List (String × Bool)) :
    ∀ idx cnt log fs count found,
      (dmLoop net cfg tweet force urls idx cnt log fs).1 = .ok (count, found) →
      found = true := by
  induction urls with
  | nil =>
    intro idx cnt log fs count found h
    simp only [dmLoop, Except.ok.injEq] at h
    exact (Prod.ext_iff.mp h).2.symm
  | cons u rest ih =>
    intro idx cnt log fs count found h
    obtain ⟨url, rsi⟩ := u
    simp only [dmLoop] at h
    cases hbp : build_filepath cfg fs (build_filename tweet (idx + 1)
        (get_file_extension_from_url url)) tweet with
    | error e => rw [hbp] at h; cases h
    | ok dsts =>
      obtain ⟨dst, extra⟩ := dsts
      rw [hbp] at h
      by_cases hchk : (!force && (check_file_already_on_disk fs extra
          || check_file_already_on_disk fs dst)) = true
      · simp only [hchk, if_true, Except.ok.injEq] at h
        exact (Prod.ext_iff.mp h).2.symm
      · simp only [hchk, Bool.false_eq_true, if_false] at h
        cases hnet : net (if rsi then url ++ "?format=" ++
            get_file_extension_from_url url ++ "&name=large" else url) with
        | none => rw [hnet] at h; cases h
        | some content =>
          rw [hnet] at h
          exact ih (idx + 1) (cnt + 1) (log ++ [_]) (write_to_disk fs dst content)
            count found h

/-- Concrete tweet whose media section is present but contains only an
entry of unrecognized kind. -/
def tweetWeird : Tweet :=
  ⟨"8", ⟨"u"⟩, ⟨2020, 1, 1⟩, some [⟨"weird", "https://h/x.bin", none⟩]⟩

/-- Counterexample to C5 as stated: a post whose media section is present
but whose only entry has an unrecognized kind is reported with
`mediaFound = false`. -/
theorem c5_media_found_counterexample :
    (download_media fsDirOnly (fun _ => none) ⟨"dl"⟩ tweetWeird false).1 = .ok (0, false)
    ∧ tweetWeird.extended_entities ≠ none := by
  exact ⟨by rfl, by decide⟩

/-- C5 (amended): `mediaFound` is false exactly when the extracted
descriptor list is empty — no media section at all, or a media section
whose entries were all skipped as unrecognized; an unrecognized entry is
skipped without aborting extraction of the post. -/
theorem c5_media_found_amended :
    (∀ (fs : FileSystem) (net : String → Option (List Nat)) (cfg : Config)
      (tweet : Tweet) (force : Bool) (count : Nat) (found : Bool),
      (download_media fs net cfg tweet force).1 = .ok (count, found) →
      (found = false ↔ get_all_media_from_tweet tweet = .ok []))
    ∧ (∀ (e : MediaEntry) (rest : List MediaEntry),
        e.type ≠ "animated_gif" → e.type ≠ "video" → e.type ≠ "photo" →
        mediaEntriesLoop (e :: rest) = mediaEntriesLoop rest) := by
  constructor
  · intro fs net cfg tweet force count found h
    simp only [download_media] at h
    cases hga : get_all_media_from_tweet tweet with
    | error e => rw [hga] at h; cases h
    | ok urls =>
      rw [hga] at h
      by_cases hempty : urls.isEmpty = true
      · simp only [hempty, if_true, Except.ok.injEq] at h
        have hfound : found = false := (Prod.ext_iff.mp h).2.symm
        have hurls : urls = [] := List.isEmpty_iff.mp hempty
        simp [hfound, hurls]
      · simp only [hempty, Bool.false_eq_true, if_false] at h
        have hfound : found = true :=
          dmLoop_ok_found_true net cfg tweet force urls 0 0 [] fs count found h
        have hurls : urls ≠ [] := fun hc => hempty (List.isEmpty_iff.mpr hc)
        simp only [hfound, Bool.true_eq_false, false_iff, Except.ok.injEq]
        exact fun hc => hurls hc
  · intro e rest h1 h2 h3
    simp only [mediaEntriesLoop, beq_iff_eq, h1, h2, h3, if_false]

/-- Witness for C5 (amended) at a concrete input: a tweet with no media
section is reported `mediaFound = false`, matching the empty extraction. -/
theorem c5_media_found_amended_witness :
    (false = false ↔ get_all_media_from_tweet tweetNoMedia = .ok []) :=
  c5_media_found_amended.1 fsDirOnly (fun _ => none) ⟨"dl"⟩ tweetNoMedia false 0 false
    (by rfl)

/-! ## C1: video variant selection -/

/-- Concrete variant list in which no candidate declares a bitrate,
the spec's own example. -/
def variantsNoBitrate : VideoInfo :=
  ⟨[⟨"video/mp4", none, "x"⟩, ⟨"video/mp4", none, "y"⟩]⟩

/-- Counterexample to C1 as stated: when no candidate declares a bitrate
the code returns the first candidate of the original order, not the last
(the spec's example `[(none,"x"), (none,"y")]` selects `"x"`, not `"y"`). -/
theorem c1_video_selection_counterexample :
    handle_media_type_video variantsNoBitrate = .ok "x"
    ∧ handle_media_type_video variantsNoBitrate ≠ .ok "y" := by
  exact ⟨by rfl, by decide⟩

/-- The pop loop on an all-falsy list walks to the end of the reversed
list, i.e. to the first element of the original order. -/
theorem popLoop_all_falsy :
    ∀ (rev : List VideoVariant) (b : VideoVariant),
      bitrateTruthy b.bitrate = false →
      (∀ x ∈ rev, bitrateTruthy x.bitrate = false) →
      ∀ (h : b :: rev ≠ []),
      popLoop b rev = ((b :: rev).getLast h, []) := by
  intro rev
  induction rev with
  | nil => intro b hb _ h; simp [popLoop]
  | cons v rest ih =>
    intro b hb hall h
    simp only [popLoop, hb, Bool.false_eq_true, if_false]
    rw [List.getLast_cons (by simp)]
    exact ih v (hall v (List.mem_cons_self v rest))
      (fun x hx => hall x (List.mem_cons_of_mem v hx)) (by simp)

/-- The pop loop stops at the first (from the popping side) variant with a
truthy bitrate, when one exists. -/
theorem popLoop_first_truthy :
    ∀ (rev : List VideoVariant) (b : VideoVariant),
      (∃ x ∈ b :: rev, bitrateTruthy x.bitrate = true) →
      ∃ pre b' rev',
        popLoop b rev = (b', rev')
        ∧ b :: rev = pre ++ b' :: rev'
        ∧ (∀ x ∈ pre, bitrateTruthy x.bitrate = false)
        ∧ bitrateTruthy b'.bitrate = true := by
  intro rev
  induction rev with
  | nil =>
    intro b hsome
    obtain ⟨x, hx, hxt⟩ := hsome
    have hxb : x = b := by simpa using hx
    subst hxb
    exact ⟨[], x, [], by simp [popLoop], by simp, by simp, hxt⟩
  | cons v rest ih =>
    intro b hsome
    by_cases hb : bitrateTruthy b.bitrate = true
    · exact ⟨[], b, v :: rest, by simp [popLoop, hb], by simp, by simp, hb⟩
    · have hb' : bitrateTruthy b.bitrate = false := by
        cases hx : bitrateTruthy b.bitrate
        · rfl
        · exact absurd hx hb
      have hsome' : ∃ x ∈ v :: rest, bitrateTruthy x.bitrate = true := by
        obtain ⟨x, hx, hxt⟩ := hsome
        rcases List.mem_cons.mp hx with hxb | hx'
        · subst hxb; exact absurd hxt hb
        · exact ⟨x, hx', hxt⟩
      obtain ⟨pre, b', rev', heq, hdec, hpre, hb't⟩ := ih v hsome'
      refine ⟨b :: pre, b', rev', ?_, by rw [List.cons_append, ← hdec], ?_, hb't⟩
      · simp only [popLoop, hb', Bool.false_eq_true, if_false]
        exact heq
      · intro x hx
        rcases List.mem_cons.mp hx with hxb | hx'
        · subst hxb; exact hb'
        · exact hpre x hx'

/-- The scan loop returns a truthy variant at least as good as the start
and as every scanned variant. -/
theorem scanLoop_spec :
    ∀ (m : List VideoVariant) (best : VideoVariant),
      bitrateTruthy best.bitrate = true →
      (scanLoop best m = best ∨ scanLoop best m ∈ m)
      ∧ bitrateTruthy (scanLoop best m).bitrate = true
      ∧ bitrateVal best ≤ bitrateVal (scanLoop best m)
      ∧ ∀ w ∈ m, bitrateVal w ≤ bitrateVal (scanLoop best m) := by
  intro m
  induction m with
  | nil => intro best hb; exact ⟨Or.inl rfl, hb, le_refl _, by simp⟩
  | cons v rest ih =>
    intro best hb
    have hstep : scanLoop best (v :: rest) =
        scanLoop (if bitrateTruthy v.bitrate && bitrateVal v > bitrateVal best
          then v else best) rest := by
      simp [scanLoop, List.foldl_cons]
    by_cases hc : (bitrateTruthy v.bitrate && decide (bitrateVal v > bitrateVal best)) = true
    · obtain ⟨hvt, hgt⟩ := Bool.and_eq_true_iff.mp hc
      have hgt' : bitrateVal v > bitrateVal best := of_decide_eq_true hgt
      rw [hstep, if_pos hc]
      obtain ⟨ihm, iht, ihle, ihall⟩ := ih v hvt
      refine ⟨?_, iht, by omega, ?_⟩
      · rcases ihm with h | h
        · exact Or.inr (by rw [h]; exact List.mem_cons_self v rest)
        · exact Or.inr (List.mem_cons_of_mem v h)
      · intro w hw
        rcases List.mem_cons.mp hw with hwv | hw'
        · subst hwv; omega
        · exact ihall w hw'
    · rw [hstep, if_neg hc]
      obtain ⟨ihm, iht, ihle, ihall⟩ := ih best hb
      refine ⟨?_, iht, ihle, ?_⟩
      · rcases ihm with h | h
        · exact Or.inl h
        · exact Or.inr (List.mem_cons_of_mem v h)
      · intro w hw
        rcases List.mem_cons.mp hw with hwv | hw'
        · subst hwv
          by_cases hvt : bitrateTruthy w.bitrate = true
          · have : ¬ bitrateVal w > bitrateVal best := by
              intro hgt
              exact hc (by simp [hvt, hgt])
            omega
          · have : bitrateVal w = 0 := by
              have : (w.bitrate.getD 0 != 0) = false := by
                cases hx : bitrateTruthy w.bitrate
                · exact hx
                · exact absurd hx hvt
              simpa [bitrateVal] using this
            omega
        · exact ihall w hw'

/-- C1 (amended): the selection returns a candidate whose truthy (nonzero)
declared bitrate is maximal among all candidates, when any candidate
declares one; when no candidate declares a nonzero bitrate it returns the
first candidate of the original order (a declared bitrate of 0 behaves as
undeclared, per Python truthiness). -/
theorem c1_video_selection_amended (vi : VideoInfo) (hne : vi.variants ≠ []) :
    ((∃ w ∈ vi.variants, bitrateTruthy w.bitrate = true) →
      ∃ v ∈ vi.variants, bitrateTruthy v.bitrate = true
        ∧ handle_media_type_video vi = .ok v.url
        ∧ ∀ w ∈ vi.variants, bitrateVal w ≤ bitrateVal v)
    ∧ ((∀ w ∈ vi.variants, bitrateTruthy w.bitrate = false) →
      handle_media_type_video vi = .ok (vi.variants.head hne).url) := by
  have hrevne : vi.variants.reverse ≠ [] := by simpa using hne
  obtain ⟨last, restRev, hrev⟩ := List.exists_cons_of_ne_nil hrevne
  constructor
  · intro hsome
    have hsome' : ∃ x ∈ last :: restRev, bitrateTruthy x.bitrate = true := by
      obtain ⟨x, hx, hxt⟩ := hsome
      exact ⟨x, hrev ▸ (List.mem_reverse.mpr hx), hxt⟩
    obtain ⟨pre, b', rev', heq, hdec, hpre, hb't⟩ :=
      popLoop_first_truthy restRev last hsome'
    have hhandle : handle_media_type_video vi = .ok (scanLoop b' rev'.reverse).url := by
      simp only [handle_media_type_video, hrev, heq]
    obtain ⟨hm, ht, hle, hall⟩ := scanLoop_spec rev'.reverse b' hb't
    have hmemrev : ∀ x, x ∈ last :: restRev → x ∈ vi.variants := by
      intro x hx
      exact List.mem_reverse.mp (hrev ▸ hx)
    have hb'mem : b' ∈ vi.variants := by
      apply hmemrev
      rw [hdec]
      exact List.mem_append.mpr (Or.inr (List.mem_cons_self b' rev'))
    refine ⟨scanLoop b' rev'.reverse, ?_, ht, hhandle, ?_⟩
    · rcases hm with h | h
      · rw [h]; exact hb'mem
      · apply hmemrev
        rw [hdec]
        exact List.mem_append.mpr
          (Or.inr (List.mem_cons_of_mem b' (List.mem_reverse.mp h)))
    · intro w hw
      have hw' : w ∈ pre ++ b' :: rev' := by
        rw [← hdec]
        exact hrev ▸ (List.mem_reverse.mpr hw)
      rcases List.mem_append.mp hw' with hwp | hwbr
      · have : bitrateVal w = 0 := by
          have hf := hpre w hwp
          simpa [bitrateTruthy, bitrateVal] using hf
        omega
      · rcases List.mem_cons.mp hwbr with hwb | hwr
        · subst hwb; exact hle
        · exact hall w (List.mem_reverse.mpr hwr)
  · intro hall
    have hlastf : bitrateTruthy last.bitrate = false :=
      hall last (List.mem_reverse.mp (hrev ▸ List.mem_cons_self last restRev))
    have hrestf : ∀ x ∈ restRev, bitrateTruthy x.bitrate = false := by
      intro x hx
      exact hall x (List.mem_reverse.mp (hrev ▸ List.mem_cons_of_mem last hx))
    have hpop := popLoop_all_falsy restRev last hlastf hrestf (by simp)
    have hhandle : handle_media_type_video vi =
        .ok (scanLoop ((last :: restRev).getLast (by simp)) List.nil.reverse).url := by
      simp only [handle_media_type_video, hrev, hpop]
    have hgl : (last :: restRev).getLast (by simp) = vi.variants.head hne := by
      have h1 : vi.variants.reverse.getLast hrevne = vi.variants.head hne := by
        have h2 := List.getLast?_reverse vi.variants
        rw [List.getLast?_eq_getLast _ hrevne, List.head?_eq_head hne] at h2
        exact Option.some.inj h2
      calc (last :: restRev).getLast (by simp)
          = vi.variants.reverse.getLast hrevne := by
            congr 1
            exact hrev.symm
        _ = vi.variants.head hne := h1
    rw [hhandle, hgl]
    rfl

/-- The spec's mixed example `[(832000,"a"), (none,"b"), (2176000,"c")]`. -/
def variantsMixed : VideoInfo :=
  ⟨[⟨"video/mp4", some 832000, "a"⟩, ⟨"application/x-mpegURL", none, "b"⟩,
    ⟨"video/mp4", some 2176000, "c"⟩]⟩

/-- Witness for C1 (amended): on the spec's mixed example some candidate
with maximal truthy bitrate is selected. -/
theorem c1_video_selection_amended_witness :
    ∃ v ∈ variantsMixed.variants, bitrateTruthy v.bitrate = true
      ∧ handle_media_type_video variantsMixed = .ok v.url
      ∧ ∀ w ∈ variantsMixed.variants, bitrateVal w ≤ bitrateVal v :=
  (c1_video_selection_amended variantsMixed (by decide)).1
    ⟨⟨"video/mp4", some 832000, "a"⟩, by decide, by decide⟩

/-! ## C3: whole-post short-circuit on an existing file -/

/-- The URL actually fetched for a descriptor: pictures get the
`?format=...&name=large` size suffix appended at download time. -/
def transformed_url (u : String × Bool) : String :=
  if u.2 then u.1 ++ "?format=" ++ get_file_extension_from_url u.1 ++ "&name=large"
  else u.1

/-- Primary target path of the descriptor at (0-based) `index`. -/
def dstPath (cfg : Config) (tweet : Tweet) (index : Nat) (u : String × Bool) : String :=
  pathJoin cfg.download_directory
    (build_filename tweet (index + 1) (get_file_extension_from_url u.1))

/-- Author-subdirectory alternate path of the descriptor at `index` (empty
when the subdirectory does not exist). -/
def extraPath (cfg : Config) (fs : FileSystem) (tweet : Tweet) (index : Nat)
    (u : String × Bool) : String :=
  if fs.isdir (pathJoin cfg.download_directory tweet.user.screen_name) then
    pathJoin (pathJoin cfg.download_directory tweet.user.screen_name)
      (build_filename tweet (index + 1) (get_file_extension_from_url u.1))
  else ""

/-- `_build_filepath` in terms of the two path functions, when the download
directory exists. -/
theorem build_filepath_paths (cfg : Config) (fs : FileSystem) (tweet : Tweet)
    (index : Nat) (u : String × Bool) (hdir : fs.isdir cfg.download_directory = true) :
    build_filepath cfg fs (build_filename tweet (index + 1)
      (get_file_extension_from_url u.1)) tweet =
      .ok (dstPath cfg tweet index u, extraPath cfg fs tweet index u) := by
  simp only [build_filepath, hdir, Bool.not_true, Bool.false_eq_true, if_false,
    dstPath, extraPath]

/-- Writing a file does not change the on-disk status of any other path. -/
theorem check_write_other (fs : FileSystem) (q : String) (c : List Nat) (p : String)
    (hne : p ≠ q) :
    check_file_already_on_disk (write_to_disk fs q c) p =
      check_file_already_on_disk fs p := by
  have hbeq : (p == q) = false := beq_eq_false_iff_ne.mpr hne
  simp only [check_file_already_on_disk, write_to_disk, hbeq, Bool.false_or,
    Bool.false_eq_true, if_false]

/-- One step of the download loop, with the path computation resolved. -/
theorem dmLoop_cons (net : String → Option (List Nat)) (cfg : Config) (tweet : Tweet)
    (force : Bool) (url : String) (rsi : Bool) (rest : List (String × Bool))
    (idx cnt : Nat) (log : List String) (fs : FileSystem) (dst extra : String)
    (hbp : build_filepath cfg fs (build_filename tweet (idx + 1)
      (get_file_extension_from_url url)) tweet = .ok (dst, extra)) :
    dmLoop net cfg tweet force ((url, rsi) :: rest) idx cnt log fs =
      if !force && (check_file_already_on_disk fs extra
          || check_file_already_on_disk fs dst) then
        (.ok (0, true), log, fs)
      else
        match net (transformed_url (url, rsi)) with
        | none => (.error "DownloadFailed", log ++ [transformed_url (url, rsi)], fs)
        | some content =>
          dmLoop net cfg tweet force rest (idx + 1) (cnt + 1)
            (log ++ [transformed_url (url, rsi)]) (write_to_disk fs dst content) := by
  conv_lhs => rw [dmLoop]
  rw [hbp]
  rfl

/-- Early-stop behaviour of the download loop: if the descriptor at
relative position `i` has one of its two paths already on disk, the earlier
descriptors check clean and fetch successfully, and no earlier write lands
on a path that is checked later, then the loop returns `(0, true)` having
fetched exactly the URLs before position `i`. -/
theorem dmLoop_early_stop (net : String → Option (List Nat)) (cfg : Config)
    (tweet : Tweet) :
    ∀ (i : Nat) (urls : List (String × Bool)) (idx cnt : Nat) (log : List String)
      (fs : FileSystem),
      fs.isdir cfg.download_directory = true →
      i < urls.length →
      (check_file_already_on_disk fs
          (extraPath cfg fs tweet (idx + i) (urls.getD i ("", false)))
        || check_file_already_on_disk fs
          (dstPath cfg tweet (idx + i) (urls.getD i ("", false)))) = true →
      (∀ j < i, check_file_already_on_disk fs
          (extraPath cfg fs tweet (idx + j) (urls.getD j ("", false))) = false
        ∧ check_file_already_on_disk fs
          (dstPath cfg tweet (idx + j) (urls.getD j ("", false))) = false) →
      (∀ j < i, (net (transformed_url (urls.getD j ("", false)))).isSome = true) →
      (∀ m j, m < j → j ≤ i →
        dstPath cfg tweet (idx + m) (urls.getD m ("", false)) ≠
          dstPath cfg tweet (idx + j) (urls.getD j ("", false))
        ∧ dstPath cfg tweet (idx + m) (urls.getD m ("", false)) ≠
          extraPath cfg fs tweet (idx + j) (urls.getD j ("", false))) →
      (dmLoop net cfg tweet false urls idx cnt log fs).1 = .ok (0, true)
      ∧ (dmLoop net cfg tweet false urls idx cnt log fs).2.1 =
          log ++ (urls.take i).map transformed_url := by
  intro i
  induction i with
  | zero =>
    intro urls idx cnt log fs hdir hi hstop _ _ _
    cases urls with
    | nil => simp at hi
    | cons u rest =>
      obtain ⟨url, rsi⟩ := u
      simp only [List.getD_cons_zero, Nat.add_zero] at hstop
      rw [dmLoop_cons net cfg tweet false url rsi rest idx cnt log fs _ _
        (build_filepath_paths cfg fs tweet idx (url, rsi) hdir)]
      rw [if_pos (by simp only [Bool.not_false, Bool.true_and]; exact hstop)]
      exact ⟨rfl, by simp⟩
  | succ i ih =>
    intro urls idx cnt log fs hdir hi hstop hprev hnet hnc
    cases urls with
    | nil => simp at hi
    | cons u rest =>
      obtain ⟨url, rsi⟩ := u
      have hshift : ∀ k : Nat, idx + (k + 1) = (idx + 1) + k := fun k => by omega
      have hprev0 := hprev 0 (Nat.succ_pos i)
      simp only [List.getD_cons_zero, Nat.add_zero] at hprev0
      rw [dmLoop_cons net cfg tweet false url rsi rest idx cnt log fs _ _
        (build_filepath_paths cfg fs tweet idx (url, rsi) hdir)]
      rw [if_neg (by
        simp only [Bool.not_false, Bool.true_and, hprev0.1, hprev0.2, Bool.or_false]
        exact Bool.false_ne_true)]
      have hnet0 := hnet 0 (Nat.succ_pos i)
      simp only [List.getD_cons_zero] at hnet0
      obtain ⟨content, hcontent⟩ := Option.isSome_iff_exists.mp hnet0
      rw [hcontent]
      set q := dstPath cfg tweet idx (url, rsi) with hq
      set fs' := write_to_disk fs q content with hfs'
      have hextra_eq : ∀ (k : Nat) (u' : String × Bool),
          extraPath cfg fs' tweet k u' = extraPath cfg fs tweet k u' := fun _ _ => rfl
      have hdir' : fs'.isdir cfg.download_directory = true := hdir
      have hi' : i < rest.length := by
        simpa using hi
      have hstop' : (check_file_already_on_disk fs'
            (extraPath cfg fs' tweet ((idx + 1) + i) (rest.getD i ("", false)))
          || check_file_already_on_disk fs'
            (dstPath cfg tweet ((idx + 1) + i) (rest.getD i ("", false)))) = true := by
        have hnc0 := hnc 0 (i + 1) (Nat.succ_pos i) (le_refl (i + 1))
        simp only [Nat.add_zero, List.getD_cons_zero, List.getD_cons_succ] at hnc0
        rw [hextra_eq, ← hshift i]
        rw [check_write_other fs q content _ (Ne.symm hnc0.2),
          check_write_other fs q content _ (Ne.symm hnc0.1)]
        simpa only [List.getD_cons_succ] using hstop
      have hprev' : ∀ j < i, check_file_already_on_disk fs'
            (extraPath cfg fs' tweet ((idx + 1) + j) (rest.getD j ("", false))) = false
          ∧ check_file_already_on_disk fs'
            (dstPath cfg tweet ((idx + 1) + j) (rest.getD j ("", false))) = false := by
        intro j hj
        have hncj := hnc 0 (j + 1) (Nat.succ_pos j) (by omega)
        simp only [Nat.add_zero, List.getD_cons_zero, List.getD_cons_succ] at hncj
        have hpj := hprev (j + 1) (by omega)
        simp only [List.getD_cons_succ] at hpj
        rw [hextra_eq, ← hshift j]
        rw [check_write_other fs q content _ (Ne.symm hncj.2),
          check_write_other fs q content _ (Ne.symm hncj.1)]
        exact hpj
      have hnet' : ∀ j < i,
          (net (transformed_url (rest.getD j ("", false)))).isSome = true := by
        intro j hj
        have := hnet (j + 1) (by omega)
        simpa only [List.getD_cons_succ] using this
      have hnc' : ∀ m j, m < j → j ≤ i →
          dstPath cfg tweet ((idx + 1) + m) (rest.getD m ("", false)) ≠
            dstPath cfg tweet ((idx + 1) + j) (rest.getD j ("", false))
          ∧ dstPath cfg tweet ((idx + 1) + m) (rest.getD m ("", false)) ≠
            extraPath cfg fs' tweet ((idx + 1) + j) (rest.getD j ("", false)) := by
        intro m j hmj hji
        have := hnc (m + 1) (j + 1) (by omega) (by omega)
        simp only [List.getD_cons_succ] at this
        rw [hextra_eq, ← hshift m, ← hshift j]
        exact this
      obtain ⟨hres1, hres2⟩ := ih rest (idx + 1) (cnt + 1)
        (log ++ [transformed_url (url, rsi)]) fs' hdir' hi' hstop' hprev' hnet' hnc'
      refine ⟨hres1, ?_⟩
      rw [hres2]
      simp [List.take_succ_cons, transformed_url]

/-- C3: if some descriptor of the post has its primary or alternate path
already on disk as a non-empty file, the earlier descriptors check clean
and download successfully, and no earlier write collides with a
later-checked path, then processing stops at that descriptor with the
result `(0, mediaFound = true)` and the only URLs fetched are those of the
descriptors before it — none at or after it. -/
theorem c3_whole_post_short_circuit (fs : FileSystem) (net : String → Option (List Nat))
    (cfg : Config) (tweet : Tweet) (urls : List (String × Bool)) (i : Nat)
    (hurls : get_all_media_from_tweet tweet = .ok urls)
    (hdir : fs.isdir cfg.download_directory = true)
    (hi : i < urls.length)
    (hstop : (check_file_already_on_disk fs
        (extraPath cfg fs tweet i (urls.getD i ("", false)))
      || check_file_already_on_disk fs
        (dstPath cfg tweet i (urls.getD i ("", false)))) = true)
    (hprev : ∀ j < i, check_file_already_on_disk fs
        (extraPath cfg fs tweet j (urls.getD j ("", false))) = false
      ∧ check_file_already_on_disk fs
        (dstPath cfg tweet j (urls.getD j ("", false))) = false)
    (hnet : ∀ j < i, (net (transformed_url (urls.getD j ("", false)))).isSome = true)
    (hnc : ∀ m j, m < j → j ≤ i →
      dstPath cfg tweet m (urls.getD m ("", false)) ≠
        dstPath cfg tweet j (urls.getD j ("", false))
      ∧ dstPath cfg tweet m (urls.getD m ("", false)) ≠
        extraPath cfg fs tweet j (urls.getD j ("", false))) :
    (download_media fs net cfg tweet false).1 = .ok (0, true)
    ∧ (download_media fs net cfg tweet false).2.1 =
        (urls.take i).map transformed_url := by
  have hne : urls.isEmpty = false := by
    cases urls with
    | nil => simp at hi
    | cons u rest => rfl
  have h := dmLoop_early_stop net cfg tweet i urls 0 0 [] fs hdir hi
    (by simpa only [Nat.zero_add] using hstop)
    (by intro j hj; simpa only [Nat.zero_add] using hprev j hj)
    hnet
    (by intro m j hmj hji; simpa only [Nat.zero_add] using hnc m j hmj hji)
  simp only [download_media, hurls, hne, Bool.false_eq_true, if_false]
  exact ⟨h.1, by rw [h.2]; simp⟩

/-- Concrete file system for the C3 witness: the download directory exists
and the first descriptor's primary target file is on disk with size 5. -/
def fsC3 : FileSystem :=
  ⟨fun p => p == "dl", fun p => p == "dl/u_2020-01-01_7_1.jpg", fun _ => 5⟩

/-- Witness for C3: with the single photo descriptor's file already on
disk, the post is reported `(0, true)` and no URL is fetched at all. -/
theorem c3_whole_post_short_circuit_witness :
    (download_media fsC3 (fun _ => none) ⟨"dl"⟩ tweetPhoto false).1 = .ok (0, true)
    ∧ (download_media fsC3 (fun _ => none) ⟨"dl"⟩ tweetPhoto false).2.1 = [] :=
  have h := c3_whole_post_short_circuit fsC3 (fun _ => none) ⟨"dl"⟩ tweetPhoto
    [("https://h/p.jpg", true)] 0 (by rfl) (by decide) (by decide) (by decide)
    (fun j hj => absurd hj (Nat.not_lt_zero j))
    (fun j hj => absurd hj (Nat.not_lt_zero j))
    (fun m j hmj hji => absurd (Nat.lt_of_lt_of_le hmj hji) (Nat.not_lt_zero m))
  ⟨h.1, by rw [h.2]; rfl⟩

/-! ## C4 and C9: facts about digit rendering -/

theorem isDigit_digitChar (k : Nat) (hk : k < 10) : (digitChar k).isDigit = true := by
  interval_cases k <;> decide

theorem natDigitsRevAux_digits :
    ∀ (fuel n : Nat), ∀ c ∈ natDigitsRevAux fuel n, c.isDigit = true := by
  intro fuel
  induction fuel with
  | zero =>
    intro n c hc
    cases n <;> simp [natDigitsRevAux] at hc
  | succ fuel ih =>
    intro n c hc
    cases n with
    | zero => simp [natDigitsRevAux] at hc
    | succ m =>
      simp only [natDigitsRevAux, List.mem_cons] at hc
      rcases hc with hc | hc
      · subst hc
        exact isDigit_digitChar _ (Nat.mod_lt _ (by omega))
      · exact ih _ c hc

theorem natDigits_digits (n : Nat) : ∀ c ∈ natDigits n, c.isDigit = true := by
  intro c hc
  by_cases hn : n = 0
  · subst hn
    have hc0 : c = '0' := by simpa [natDigits] using hc
    subst hc0
    decide
  · simp only [natDigits, if_neg hn, List.mem_reverse] at hc
    exact natDigitsRevAux_digits n n c hc

theorem natDigitsRevAux_length :
    ∀ (fuel k n : Nat), n < 10 ^ k → (natDigitsRevAux fuel n).length ≤ k := by
  intro fuel
  induction fuel with
  | zero =>
    intro k n _
    cases n <;> simp [natDigitsRevAux]
  | succ fuel ih =>
    intro k n hn
    cases n with
    | zero => simp [natDigitsRevAux]
    | succ m =>
      have hk : 1 ≤ k := by
        by_contra hc
        have hk0 : k = 0 := by omega
        subst hk0
        simp at hn
      simp only [natDigitsRevAux, List.length_cons]
      have hdiv : (m + 1) / 10 < 10 ^ (k - 1) := by
        rw [Nat.div_lt_iff_lt_mul (by omega)]
        calc m + 1 < 10 ^ k := hn
          _ = 10 ^ (k - 1) * 10 := by
            rw [← Nat.pow_succ]
            congr 1
            omega
      have := ih (k - 1) ((m + 1) / 10) hdiv
      omega

theorem natDigits_length_le (k n : Nat) (hk : 1 ≤ k) (hn : n < 10 ^ k) :
    (natDigits n).length ≤ k := by
  by_cases h0 : n = 0
  · subst h0; simpa [natDigits] using hk
  · simp only [natDigits, if_neg h0, List.length_reverse]
    exact natDigitsRevAux_length n k n hn

theorem padZero_length (w : Nat) (s : List Char) (h : s.length ≤ w) :
    (padZero w s).length = w := by
  simp only [padZero, List.length_append, List.length_replicate]
  omega

theorem padZero_digits (w : Nat) (s : List Char) (hs : ∀ c ∈ s, c.isDigit = true) :
    ∀ c ∈ padZero w s, c.isDigit = true := by
  intro c hc
  rcases List.mem_append.mp hc with hc | hc
  · have := List.eq_of_mem_replicate hc
    subst this
    decide
  · exact hs c hc

/-- A padded date field: 4-digit rendering of a year up to 9999. -/
theorem padZero_natDigits_spec (w n : Nat) (hw : 1 ≤ w) (hn : n < 10 ^ w) :
    (padZero w (natDigits n)).length = w
    ∧ ∀ c ∈ padZero w (natDigits n), c.isDigit = true :=
  ⟨padZero_length w _ (natDigits_length_le w n hw hn),
    padZero_digits w _ (natDigits_digits n)⟩

theorem natDigits_single (i : Nat) (h1 : 1 ≤ i) (h9 : i ≤ 9) :
    natDigits i = [digitChar i] := by
  interval_cases i <;> rfl

theorem length_eq_four_exists {l : List Char} (h : l.length = 4) :
    ∃ a b c d, l = [a, b, c, d] := by
  match l, h with
  | [a, b, c, d], _ => exact ⟨a, b, c, d, rfl⟩

theorem length_eq_two_exists {l : List Char} (h : l.length = 2) :
    ∃ a b, l = [a, b] := by
  match l, h with
  | [a, b], _ => exact ⟨a, b, rfl⟩

theorem isWordChar_of_isDigit (c : Char) (h : c.isDigit = true) :
    isWordChar c = true := by
  simp only [isWordChar, Char.isAlphanum, h, Bool.or_true, Bool.true_or]

theorem ne_of_isDigit_not (c d : Char) (hc : c.isDigit = true) (hd : d.isDigit = false) :
    c ≠ d := by
  intro h
  rw [h, hd] at hc
  cases hc

/-! ## C4: running the matcher on a built filename -/

theorem afterAccount_head_ne (c : Char) (rest : List Char) (h : c ≠ '_') :
    afterAccount (c :: rest) = none := by
  unfold afterAccount
  split
  · next r heq =>
    injection heq with h1 h2
    exact absurd h1 h
  · rfl

theorem accountLoop_step (c : Char) (revAcc rest : List Char)
    (h : afterAccount rest = none) :
    accountLoop (c :: revAcc) rest = accountLoop revAcc (c :: rest) := by
  simp only [accountLoop, accAttempt, h, Option.map_none']

theorem matchDate_exact (Y M D rest : List Char)
    (hY : Y.length = 4) (hYd : ∀ c ∈ Y, c.isDigit = true)
    (hM : M.length = 2) (hMd : ∀ c ∈ M, c.isDigit = true)
    (hD : D.length = 2) (hDd : ∀ c ∈ D, c.isDigit = true) :
    matchDate (Y ++ '-' :: (M ++ '-' :: (D ++ rest))) =
      some (Y ++ '-' :: (M ++ '-' :: D), rest) := by
  simp only [matchDate]
  rw [List.take_left' hY, List.drop_left' hY]
  rw [if_pos (by simp only [hY, List.all_eq_true, beq_self_eq_true, Bool.true_and]; exact hYd)]
  show (let m := (M ++ '-' :: (D ++ rest)).take 2
        let r3 := (M ++ '-' :: (D ++ rest)).drop 2
        if (m.length == 2 && m.all Char.isDigit) = true then
          match r3 with
          | '-' :: r4 =>
            let d := r4.take 2
            let r5 := r4.drop 2
            if (d.length == 2 && d.all Char.isDigit) = true then
              some (Y ++ '-' :: (m ++ '-' :: d), r5)
            else none
          | _ => none
        else none) = some (Y ++ '-' :: (M ++ '-' :: D), rest)
  simp only [List.take_left' hM, List.drop_left' hM]
  rw [if_pos (by simp only [hM, List.all_eq_true, beq_self_eq_true, Bool.true_and]; exact hMd)]
  show (let d := (D ++ rest).take 2
        let r5 := (D ++ rest).drop 2
        if (d.length == 2 && d.all Char.isDigit) = true then
          some (Y ++ '-' :: (M ++ '-' :: d), r5)
        else none) = some (Y ++ '-' :: (M ++ '-' :: D), rest)
  simp only [List.take_left' hD, List.drop_left' hD]
  rw [if_pos (by simp only [hD, List.all_eq_true, beq_self_eq_true, Bool.true_and]; exact hDd)]

theorem idAttempt_exact (revId : List Char) (mc : Char) (E : List Char)
    (hmc : mc.isDigit = true) (hE : E ≠ []) (hEw : ∀ c ∈ E, isWordChar c = true) :
    idAttempt revId ('_' :: mc :: '.' :: E) =
      some (revId.reverse.asString, String.mk [mc], E.asString) := by
  simp only [idAttempt]
  rw [if_pos (by simp [hmc])]
  have htw : E.takeWhile isWordChar = E := List.takeWhile_eq_self_iff.mpr hEw
  rw [htw]
  rw [if_neg (by simpa [List.isEmpty_iff] using hE)]

theorem idLoop_first (revId rest : List Char) (g : String × String × String)
    (h : idAttempt revId rest = some g) : idLoop revId rest = some g := by
  cases revId with
  | nil => simpa [idLoop] using h
  | cons c r => simp [idLoop, h]

theorem afterAccount_exact (Y M D P : List Char) (mc : Char) (E : List Char)
    (hY : Y.length = 4) (hYd : ∀ c ∈ Y, c.isDigit = true)
    (hM : M.length = 2) (hMd : ∀ c ∈ M, c.isDigit = true)
    (hD : D.length = 2) (hDd : ∀ c ∈ D, c.isDigit = true)
    (hP : ∀ c ∈ P, c.isDigit = true)
    (hmc : mc.isDigit = true) (hE : E ≠ []) (hEw : ∀ c ∈ E, isWordChar c = true) :
    afterAccount
      ('_' :: (Y ++ '-' :: (M ++ '-' :: (D ++ '_' :: (P ++ '_' :: mc :: '.' :: E))))) =
      some ((Y ++ '-' :: (M ++ '-' :: D)).asString,
        P.asString, String.mk [mc], E.asString) := by
  simp only [afterAccount]
  rw [matchDate_exact Y M D ('_' :: (P ++ '_' :: mc :: '.' :: E)) hY hYd hM hMd hD hDd]
  show Option.map _ (idLoop ((P ++ '_' :: mc :: '.' :: E).takeWhile Char.isDigit).reverse
      ((P ++ '_' :: mc :: '.' :: E).dropWhile Char.isDigit)) = _
  rw [takeWhile_append_all Char.isDigit P ('_' :: mc :: '.' :: E) hP,
    dropWhile_append_all Char.isDigit P ('_' :: mc :: '.' :: E) hP]
  rw [show ('_' :: mc :: '.' :: E).takeWhile Char.isDigit = [] from rfl,
    show ('_' :: mc :: '.' :: E).dropWhile Char.isDigit = '_' :: mc :: '.' :: E from rfl]
  rw [List.append_nil]
  rw [idLoop_first P.reverse _ _ (idAttempt_exact P.reverse mc E hmc hE hEw)]
  rw [List.reverse_reverse]
  rfl

/-- Running the parser on a canonically built filename returns the five
fields.  `A` is the author, `Y`/`M`/`D` the padded date fields, `P` the post
identifier, `mc` the single index digit and `E` the extension. -/
theorem groupdict_roundtrip (A Y M D P E : List Char) (mc : Char)
    (hA : A ≠ []) (hAw : ∀ c ∈ A, isWordChar c = true)
    (hY : Y.length = 4) (hYd : ∀ c ∈ Y, c.isDigit = true)
    (hM : M.length = 2) (hMd : ∀ c ∈ M, c.isDigit = true)
    (hD : D.length = 2) (hDd : ∀ c ∈ D, c.isDigit = true)
    (hP : ∀ c ∈ P, c.isDigit = true)
    (hmc : mc.isDigit = true) (hE : E ≠ []) (hEw : ∀ c ∈ E, isWordChar c = true) :
    groupdict_from_filename
      ((A ++ '_' :: (Y ++ '-' :: (M ++ '-' :: (D ++ '_' :: (P ++ '_' :: mc :: '.' :: E))))).asString) =
      .ok ⟨A.asString, (Y ++ '-' :: (M ++ '-' :: D)).asString,
        P.asString, String.mk [mc], E.asString⟩ := by
  obtain ⟨y1, y2, y3, y4, hYe⟩ := length_eq_four_exists hY
  subst hYe
  have hy1 : y1.isDigit = true := hYd y1 (by simp)
  have hy2 : y2.isDigit = true := hYd y2 (by simp)
  have hy3 : y3.isDigit = true := hYd y3 (by simp)
  have hy4 : y4.isDigit = true := hYd y4 (by simp)
  set T : List Char := M ++ '-' :: (D ++ '_' :: (P ++ '_' :: mc :: '.' :: E)) with hT
  set L : List Char :=
    A ++ '_' :: ([y1, y2, y3, y4] ++ '-' :: T) with hL
  have hLdata : (L.asString).data = L := rfl
  have hword : ∀ c ∈ A ++ '_' :: [y1, y2, y3, y4], isWordChar c = true := by
    intro c hc
    rcases List.mem_append.mp hc with hc | hc
    · exact hAw c hc
    · simp only [List.mem_cons, List.not_mem_nil, or_false] at hc
      rcases hc with rfl | rfl | rfl | rfl | rfl
      · decide
      · exact isWordChar_of_isDigit _ hy1
      · exact isWordChar_of_isDigit _ hy2
      · exact isWordChar_of_isDigit _ hy3
      · exact isWordChar_of_isDigit _ hy4
  have hsplit : L = (A ++ '_' :: [y1, y2, y3, y4]) ++ '-' :: T := by
    simp [hL, List.append_assoc]
  have htake : L.takeWhile isWordChar = A ++ '_' :: [y1, y2, y3, y4] := by
    rw [hsplit, takeWhile_append_all isWordChar _ _ hword]
    rw [show ('-' :: T).takeWhile isWordChar = [] from rfl, List.append_nil]
  have hdrop : L.dropWhile isWordChar = '-' :: T := by
    rw [hsplit, dropWhile_append_all isWordChar _ _ hword]
    rfl
  simp only [groupdict_from_filename, hLdata, htake, hdrop]
  have hrevAcc : (A ++ '_' :: [y1, y2, y3, y4]).reverse =
      y4 :: y3 :: y2 :: y1 :: '_' :: A.reverse := by
    simp [List.reverse_append]
  rw [hrevAcc]
  rw [accountLoop_step y4 _ _ (afterAccount_head_ne '-' T (by decide))]
  rw [accountLoop_step y3 _ _
    (afterAccount_head_ne y4 _ (ne_of_isDigit_not y4 '_' hy4 (by decide)))]
  rw [accountLoop_step y2 _ _
    (afterAccount_head_ne y3 _ (ne_of_isDigit_not y3 '_' hy3 (by decide)))]
  rw [accountLoop_step y1 _ _
    (afterAccount_head_ne y2 _ (ne_of_isDigit_not y2 '_' hy2 (by decide)))]
  rw [accountLoop_step '_' _ _
    (afterAccount_head_ne y1 _ (ne_of_isDigit_not y1 '_' hy1 (by decide)))]
  have hArev : ∃ c r, A.reverse = c :: r := by
    cases hc : A.reverse with
    | nil => exact absurd (by simpa using congrArg List.reverse hc) hA
    | cons c r => exact ⟨c, r, rfl⟩
  obtain ⟨c, r, hcr⟩ := hArev
  rw [hcr]
  have hrest : ('_' :: y1 :: y2 :: y3 :: y4 :: '-' :: T) =
      ('_' :: ([y1, y2, y3, y4] ++ '-' :: T)) := rfl
  rw [hrest]
  have hafter := afterAccount_exact [y1, y2, y3, y4] M D P mc E hY hYd hM hMd hD hDd
    hP hmc hE hEw
  rw [show accountLoop (c :: r) ('_' :: ([y1, y2, y3, y4] ++ '-' :: T)) =
      match accAttempt (c :: r) ('_' :: ([y1, y2, y3, y4] ++ '-' :: T)) with
      | some g => some g
      | none => accountLoop r (c :: '_' :: ([y1, y2, y3, y4] ++ '-' :: T))
    from rfl]
  rw [show accAttempt (c :: r) ('_' :: ([y1, y2, y3, y4] ++ '-' :: T)) =
      (afterAccount ('_' :: ([y1, y2, y3, y4] ++ '-' :: T))).map fun g =>
        ⟨(c :: r).reverse.asString, g.1, g.2.1, g.2.2.1, g.2.2.2⟩ from rfl]
  rw [show ('_' :: ([y1, y2, y3, y4] ++ '-' :: T)) =
      ('_' :: ([y1, y2, y3, y4] ++ '-' :: (M ++ '-' :: (D ++ '_' :: (P ++ '_' :: mc :: '.' :: E))))) from rfl]
  rw [hafter]
  rw [show (c :: r) = A.reverse from hcr.symm, List.reverse_reverse]
  rfl

/-- Counterexample to C4 as stated: for the valid 1-based media index 10
the parser does not reproduce the five fields — it fails outright (the
single-digit `media_count` group followed by the wildcard dot cannot match
`_10.jpg`). -/
theorem c4_roundtrip_counterexample :
    build_filename ⟨"1", ⟨"a"⟩, ⟨2020, 1, 1⟩, none⟩ 10 "jpg" = "a_2020-01-01_1_10.jpg"
    ∧ groupdict_from_filename (build_filename ⟨"1", ⟨"a"⟩, ⟨2020, 1, 1⟩, none⟩ 10 "jpg") =
        .error "Failed to parse file a_2020-01-01_1_10.jpg" := by
  exact ⟨by decide, by decide⟩

/-- C4 (amended): parsing is the exact structural inverse of building for
all valid inputs once "valid" is made precise: nonempty author and
extension of word characters, a date with a 4-digit year and 2-digit month
and day renderings, a digit-string post identifier, and a media index
between 1 and 9 (a single digit — for indexes of two or more digits the
round trip fails, as the counterexample shows). -/
theorem c4_roundtrip_amended (author pid ext : String) (y mo dy idx : Nat)
    (hA : author.data ≠ []) (hAw : ∀ c ∈ author.data, isWordChar c = true)
    (hE : ext.data ≠ []) (hEw : ∀ c ∈ ext.data, isWordChar c = true)
    (hy : y ≤ 9999) (hmo : mo ≤ 99) (hdy : dy ≤ 99)
    (hpid : ∀ c ∈ pid.data, c.isDigit = true)
    (hidx1 : 1 ≤ idx) (hidx9 : idx ≤ 9) :
    groupdict_from_filename (build_filename ⟨pid, ⟨author⟩, ⟨y, mo, dy⟩, none⟩ idx ext) =
      .ok ⟨author, (strftimeYMD ⟨y, mo, dy⟩).asString, pid,
        (natDigits idx).asString, ext⟩ := by
  set Y := padZero 4 (natDigits y) with hYdef
  set M := padZero 2 (natDigits mo) with hMdef
  set D := padZero 2 (natDigits dy) with hDdef
  obtain ⟨hYl, hYd⟩ := padZero_natDigits_spec 4 y (by omega) (by omega)
  obtain ⟨hMl, hMd⟩ := padZero_natDigits_spec 2 mo (by omega) (by omega)
  obtain ⟨hDl, hDd⟩ := padZero_natDigits_spec 2 dy (by omega) (by omega)
  have hmc : (digitChar idx).isDigit = true := isDigit_digitChar idx (by omega)
  have hstr : build_filename ⟨pid, ⟨author⟩, ⟨y, mo, dy⟩, none⟩ idx ext =
      (author.data ++ '_' :: (Y ++ '-' :: (M ++ '-' :: (D ++ '_' ::
        (pid.data ++ '_' :: digitChar idx :: '.' :: ext.data))))).asString := by
    have hd : (build_filename ⟨pid, ⟨author⟩, ⟨y, mo, dy⟩, none⟩ idx ext).data =
        author.data ++ '_' :: (Y ++ '-' :: (M ++ '-' :: (D ++ '_' ::
          (pid.data ++ '_' :: digitChar idx :: '.' :: ext.data)))) := by
      simp only [build_filename, String.data_append]
      rw [show ((strftimeYMD ⟨y, mo, dy⟩).asString).data = strftimeYMD ⟨y, mo, dy⟩ from rfl,
        show ((natDigits idx).asString).data = natDigits idx from rfl,
        natDigits_single idx hidx1 hidx9]
      rw [show strftimeYMD ⟨y, mo, dy⟩ = Y ++ '-' :: (M ++ '-' :: D) from rfl]
      simp [List.append_assoc]
    calc build_filename ⟨pid, ⟨author⟩, ⟨y, mo, dy⟩, none⟩ idx ext
        = ((build_filename ⟨pid, ⟨author⟩, ⟨y, mo, dy⟩, none⟩ idx ext).data).asString := rfl
      _ = _ := by rw [hd]
  rw [hstr]
  have h := groupdict_roundtrip author.data Y M D pid.data ext.data (digitChar idx)
    hA hAw hYl hYd hMl hMd hDl hDd hpid hmc hE hEw
  rw [h, natDigits_single idx hidx1 hidx9]
  rfl

/-- Witness for C4 (amended) at the valid input
`("a", 2020-01-01, "1", 1, "jpg")`. -/
theorem c4_roundtrip_amended_witness :
    groupdict_from_filename (build_filename ⟨"1", ⟨"a"⟩, ⟨2020, 1, 1⟩, none⟩ 1 "jpg") =
      .ok ⟨"a", (strftimeYMD ⟨2020, 1, 1⟩).asString, "1", (natDigits 1).asString, "jpg"⟩ :=
  c4_roundtrip_amended "a" "1" "jpg" 2020 1 1 1 (by decide) (by decide) (by decide)
    (by decide) (by omega) (by omega) (by omega) (by decide) (by omega) (by omega)

/-! ## C9: soundness of the matcher — a successful parse pins the shape -/

theorem idAttempt_sound (revId rest : List Char) (g : String × String × String)
    (h : idAttempt revId rest = some g) :
    ∃ mc dot ext restE, rest = '_' :: mc :: dot :: (ext ++ restE)
      ∧ mc.isDigit = true ∧ dot ≠ '\n' ∧ ext ≠ []
      ∧ (∀ c ∈ ext, isWordChar c = true) := by
  unfold idAttempt at h
  split at h
  · next mc dot restExt =>
    dsimp only at h
    split at h
    · next hcond =>
      split at h
      · cases h
      · next hne =>
        obtain ⟨hmc, hdot⟩ := Bool.and_eq_true_iff.mp hcond
        refine ⟨mc, dot, restExt.takeWhile isWordChar, restExt.dropWhile isWordChar,
          ?_, hmc, ?_, ?_, ?_⟩
        · rw [List.takeWhile_append_dropWhile]
        · exact bne_iff_ne.mp hdot
        · intro hc
          rw [hc] at hne
          simp at hne
        · intro c hc
          exact List.mem_takeWhile_imp hc
    · cases h
  · cases h

theorem idLoop_sound :
    ∀ (revId rest : List Char) (g : String × String × String),
      idLoop revId rest = some g →
      ∃ moved revId', revId = moved ++ revId'
        ∧ idAttempt revId' (moved.reverse ++ rest) = some g := by
  intro revId
  induction revId with
  | nil =>
    intro rest g h
    exact ⟨[], [], rfl, by simpa [idLoop] using h⟩
  | cons c r ih =>
    intro rest g h
    simp only [idLoop] at h
    cases hat : idAttempt (c :: r) rest with
    | some g' =>
      rw [hat] at h
      injection h with h
      subst h
      exact ⟨[], c :: r, rfl, by simpa using hat⟩
    | none =>
      rw [hat] at h
      obtain ⟨m, r', hsplit, hatt⟩ := ih (c :: rest) g h
      refine ⟨c :: m, r', by rw [List.cons_append, hsplit], ?_⟩
      rw [List.reverse_cons, List.append_assoc]
      simpa using hatt

theorem matchDate_sound (s dc rest : List Char) (h : matchDate s = some (dc, rest)) :
    ∃ Y M D, s = Y ++ '-' :: (M ++ '-' :: (D ++ rest))
      ∧ Y.length = 4 ∧ (∀ c ∈ Y, c.isDigit = true)
      ∧ M.length = 2 ∧ (∀ c ∈ M, c.isDigit = true)
      ∧ D.length = 2 ∧ (∀ c ∈ D, c.isDigit = true) := by
  unfold matchDate at h
  dsimp only at h
  split at h
  · next hcond1 =>
    obtain ⟨hY4, hYd⟩ := Bool.and_eq_true_iff.mp hcond1
    split at h
    · next r2 heq2 =>
      split at h
      · next hcond2 =>
        obtain ⟨hM2, hMd⟩ := Bool.and_eq_true_iff.mp hcond2
        split at h
        · next r4 heq4 =>
          split at h
          · next hcond3 =>
            obtain ⟨hD2, hDd⟩ := Bool.and_eq_true_iff.mp hcond3
            injection h with h
            injection h with h1 h2
            refine ⟨s.take 4, r2.take 2, r4.take 2, ?_, ?_, ?_, ?_, ?_, ?_, ?_⟩
            · subst h2
              calc s = s.take 4 ++ s.drop 4 := (List.take_append_drop 4 s).symm
                _ = s.take 4 ++ '-' :: (r2.take 2 ++ r2.drop 2) := by
                    rw [heq2, List.take_append_drop]
                _ = s.take 4 ++ '-' :: (r2.take 2 ++ '-' :: (r4.take 2 ++ r4.drop 2)) := by
                    rw [heq4, List.take_append_drop]
            · exact Nat.beq_eq_true_eq _ _ ▸ hY4
            · intro c hc; exact List.all_eq_true.mp hYd c hc
            · exact Nat.beq_eq_true_eq _ _ ▸ hM2
            · intro c hc; exact List.all_eq_true.mp hMd c hc
            · exact Nat.beq_eq_true_eq _ _ ▸ hD2
            · intro c hc; exact List.all_eq_true.mp hDd c hc
          · cases h
        · cases h
      · cases h
    · cases h
  · cases h

theorem afterAccount_sound (s : List Char) (q : String × String × String × String)
    (h : afterAccount s = some q) :
    ∃ r, s = '_' :: r
      ∧ ∃ dc rest2, matchDate r = some (dc, rest2)
      ∧ ∃ r3, rest2 = '_' :: r3
      ∧ ∃ g3, idLoop ((r3.takeWhile Char.isDigit).reverse)
          (r3.dropWhile Char.isDigit) = some g3 := by
  cases s with
  | nil => simp [afterAccount] at h
  | cons c rest =>
    by_cases hc : c = '_'
    · subst hc
      refine ⟨rest, rfl, ?_⟩
      rw [show afterAccount ('_' :: rest) =
        (match matchDate rest with
         | none => none
         | some (date, r2) =>
           match r2 with
           | '_' :: r3 =>
             (idLoop (r3.takeWhile Char.isDigit).reverse
               (r3.dropWhile Char.isDigit)).map fun g => (date.asString, g)
           | _ => none) from rfl] at h
      cases hmd : matchDate rest with
      | none => rw [hmd] at h; simp at h
      | some p =>
        obtain ⟨dc, rest2⟩ := p
        rw [hmd] at h
        dsimp only at h
        refine ⟨dc, rest2, rfl, ?_⟩
        cases rest2 with
        | nil => simp at h
        | cons c2 r3 =>
          by_cases hc2 : c2 = '_'
          · subst hc2
            refine ⟨r3, rfl, ?_⟩
            have h' : Option.map (fun g => (dc.asString, g))
                (idLoop (r3.takeWhile Char.isDigit).reverse
                  (r3.dropWhile Char.isDigit)) = some q := h
            cases hid : idLoop (r3.takeWhile Char.isDigit).reverse
                (r3.dropWhile Char.isDigit) with
            | none => rw [hid] at h'; simp at h'
            | some g3 => exact ⟨g3, rfl⟩
          · exfalso
            split at h <;> simp_all
    · rw [afterAccount_head_ne c rest hc] at h
      cases h

theorem accAttempt_sound (revAcc rest : List Char) (g : FileGroups)
    (h : accAttempt revAcc rest = some g) :
    revAcc ≠ [] ∧ ∃ q, afterAccount rest = some q := by
  unfold accAttempt at h
  split at h
  · cases h
  · next c r =>
    refine ⟨by simp, ?_⟩
    cases haa : afterAccount rest with
    | none => rw [haa] at h; cases h
    | some q => exact ⟨q, rfl⟩

theorem accountLoop_sound :
    ∀ (revAcc rest : List Char) (g : FileGroups),
      accountLoop revAcc rest = some g →
      ∃ moved revAcc', revAcc = moved ++ revAcc'
        ∧ accAttempt revAcc' (moved.reverse ++ rest) = some g := by
  intro revAcc
  induction revAcc with
  | nil => intro rest g h; cases h
  | cons c r ih =>
    intro rest g h
    simp only [accountLoop] at h
    cases hat : accAttempt (c :: r) rest with
    | some g' =>
      rw [hat] at h
      injection h with h
      subst h
      exact ⟨[], c :: r, rfl, by simpa using hat⟩
    | none =>
      rw [hat] at h
      obtain ⟨m, r', hsplit, hatt⟩ := ih (c :: rest) g h
      refine ⟨c :: m, r', by rw [List.cons_append, hsplit], ?_⟩
      rw [List.reverse_cons, List.append_assoc]
      simpa using hatt

/-- A successful parse decomposes the input into the unanchored shape the
regular expression actually requires: word+ `_` 4 digits `-` 2 digits `-`
2 digits `_` digits `_` digit, one non-newline character, word+, and then
anything. -/
theorem groupdict_sound (s : String) (g : FileGroups)
    (h : groupdict_from_filename s = .ok g) :
    ∃ (A Y M D P : List Char) (mc dot : Char) (ext restE : List Char),
      s.data = A ++ '_' :: (Y ++ '-' :: (M ++ '-' :: (D ++ '_' ::
        (P ++ '_' :: mc :: dot :: (ext ++ restE)))))
      ∧ A ≠ [] ∧ (∀ c ∈ A, isWordChar c = true)
      ∧ Y.length = 4 ∧ (∀ c ∈ Y, c.isDigit = true)
      ∧ M.length = 2 ∧ (∀ c ∈ M, c.isDigit = true)
      ∧ D.length = 2 ∧ (∀ c ∈ D, c.isDigit = true)
      ∧ (∀ c ∈ P, c.isDigit = true)
      ∧ mc.isDigit = true ∧ dot ≠ '\n' ∧ ext ≠ []
      ∧ (∀ c ∈ ext, isWordChar c = true) := by
  unfold groupdict_from_filename at h
  dsimp only at h
  cases hacc : accountLoop ((s.data.takeWhile isWordChar).reverse)
      (s.data.dropWhile isWordChar) with
  | none => rw [hacc] at h; cases h
  | some g0 =>
    rw [hacc] at h
    obtain ⟨moved, revAcc', hsplit, hatt⟩ :=
      accountLoop_sound ((s.data.takeWhile isWordChar).reverse)
        (s.data.dropWhile isWordChar) g0 hacc
    obtain ⟨hne, q, haa⟩ := accAttempt_sound revAcc' _ g0 hatt
    obtain ⟨r, hr, dc, rest2, hmd, r3, hr3, g3, hid⟩ := afterAccount_sound _ q haa
    obtain ⟨Y, M, D, hrdec, hY4, hYd, hM2, hMd, hD2, hDd⟩ :=
      matchDate_sound r dc rest2 hmd
    obtain ⟨moved2, revId', hsplit2, hatt2⟩ :=
      idLoop_sound ((r3.takeWhile Char.isDigit).reverse) (r3.dropWhile Char.isDigit)
        g3 hid
    obtain ⟨mc, dot, ext, restE, hrest2, hmc, hdot, hextne, hextw⟩ :=
      idAttempt_sound revId' _ g3 hatt2
    have hA : s.data = revAcc'.reverse ++ (moved.reverse ++ s.data.dropWhile isWordChar) := by
      conv_lhs => rw [← List.takeWhile_append_dropWhile (p := isWordChar) (l := s.data)]
      have hTW : s.data.takeWhile isWordChar = revAcc'.reverse ++ moved.reverse := by
        calc s.data.takeWhile isWordChar
            = ((s.data.takeWhile isWordChar).reverse).reverse := (List.reverse_reverse _).symm
          _ = (moved ++ revAcc').reverse := by rw [hsplit]
          _ = revAcc'.reverse ++ moved.reverse := List.reverse_append _ _
      rw [hTW, List.append_assoc]
    have hP : r3 = revId'.reverse ++ (moved2.reverse ++ r3.dropWhile Char.isDigit) := by
      conv_lhs => rw [← List.takeWhile_append_dropWhile (p := Char.isDigit) (l := r3)]
      have hTW : r3.takeWhile Char.isDigit = revId'.reverse ++ moved2.reverse := by
        calc r3.takeWhile Char.isDigit
            = ((r3.takeWhile Char.isDigit).reverse).reverse := (List.reverse_reverse _).symm
          _ = (moved2 ++ revId').reverse := by rw [hsplit2]
          _ = revId'.reverse ++ moved2.reverse := List.reverse_append _ _
      rw [hTW, List.append_assoc]
    refine ⟨revAcc'.reverse, Y, M, D, revId'.reverse, mc, dot, ext, restE, ?_,
      by simpa using hne, ?_, hY4, hYd, hM2, hMd, hD2, hDd, ?_, hmc, hdot, hextne, hextw⟩
    · rw [hA, hr, hrdec, hr3, hP, hrest2]
    · intro c hc
      have hc' : c ∈ (s.data.takeWhile isWordChar).reverse := by
        rw [hsplit]
        exact List.mem_append.mpr (Or.inr (List.mem_reverse.mp hc))
      exact List.mem_takeWhile_imp (List.mem_reverse.mp hc')
    · intro c hc
      have hc' : c ∈ (r3.takeWhile Char.isDigit).reverse := by
        rw [hsplit2]
        exact List.mem_append.mpr (Or.inr (List.mem_reverse.mp hc))
      exact List.mem_takeWhile_imp (List.mem_reverse.mp hc')

/-! ## C9: the canonical filename pattern, modelled from the spec's words

`canonicalFull` is the claim's pattern
`{author}_{YYYY-MM-DD}_{postId}_{index}.{extension}` read as the whole
string: author nonempty word characters, a 4-2-2 digit date, an arbitrary
post identifier, a nonempty digit index, a literal dot, and a nonempty
word-character extension reaching the end of the string.  `canonicalMatch`
is the shape the regular expression actually accepts (matched as a prefix,
with a single-digit index and a wildcard in place of the dot). -/

/-- Claim-side pattern tail `{postId}_{index}.{extension}`, anchored at the
end of the string; the post identifier is left unconstrained. -/
def fullTail (r4 : List Char) : Bool :=
  (List.range (r4.length + 1)).any fun k =>
    match r4.drop k with
    | '_' :: r5 =>
      (List.range r5.length).any fun i =>
        (r5.take (i + 1)).all Char.isDigit &&
        (match r5.drop (i + 1) with
         | '.' :: ext => !ext.isEmpty && ext.all isWordChar
         | _ => false)
    | _ => false

/-- Claim-side canonical pattern, whole-string. -/
def canonicalFull (cs : List Char) : Bool :=
  (List.range cs.length).any fun a =>
    (cs.take (a + 1)).all isWordChar &&
    (match cs.drop (a + 1) with
     | '_' :: r1 =>
       (r1.take 4).all Char.isDigit && ((r1.take 4).length == 4) &&
       (match r1.drop 4 with
        | '-' :: r2 =>
          (r2.take 2).all Char.isDigit && ((r2.take 2).length == 2) &&
          (match r2.drop 2 with
           | '-' :: r3 =>
             (r3.take 2).all Char.isDigit && ((r3.take 2).length == 2) &&
             (match r3.drop 2 with
              | '_' :: r4 => fullTail r4
              | _ => false)
           | _ => false)
        | _ => false)
     | _ => false)

/-- The pattern tail the regular expression actually accepts after the
date: a digit-run identifier, `_`, one digit, one character other than a
newline, and at least one word character (the rest of the string is
ignored). -/
def matchTail (r4 : List Char) : Bool :=
  (List.range (r4.length + 1)).any fun k =>
    (r4.take k).all Char.isDigit &&
    (match r4.drop k with
     | '_' :: mc :: dot :: restE =>
       mc.isDigit && dot != '\n' &&
       (match restE with
        | e :: _ => isWordChar e
        | [] => false)
     | _ => false)

/-- The shape of the strings the parser accepts: the regular expression's
pattern matched as a prefix of the string. -/
def canonicalMatch (cs : List Char) : Bool :=
  (List.range cs.length).any fun a =>
    (cs.take (a + 1)).all isWordChar &&
    (match cs.drop (a + 1) with
     | '_' :: r1 =>
       (r1.take 4).all Char.isDigit && ((r1.take 4).length == 4) &&
       (match r1.drop 4 with
        | '-' :: r2 =>
          (r2.take 2).all Char.isDigit && ((r2.take 2).length == 2) &&
          (match r2.drop 2 with
           | '-' :: r3 =>
             (r3.take 2).all Char.isDigit && ((r3.take 2).length == 2) &&
             (match r3.drop 2 with
              | '_' :: r4 => matchTail r4
              | _ => false)
           | _ => false)
        | _ => false)
     | _ => false)

/-- Counterexample to C9 as stated: `"a_2020-01-01_1_1.jpg???"` does not
match the canonical filename pattern (its extension would have to be
`jpg???`, which is not made of word characters), yet the parse operation
succeeds and returns fields instead of failing — the regular expression is
not anchored at the end. -/
theorem c9_parse_failure_counterexample :
    canonicalFull "a_2020-01-01_1_1.jpg???".data = false
    ∧ groupdict_from_filename "a_2020-01-01_1_1.jpg???" =
        .ok ⟨"a", "2020-01-01", "1", "1", "jpg"⟩ := by
  exact ⟨by decide, by decide⟩

/-- A successful parse implies the prefix shape holds. -/
theorem groupdict_ok_canonicalMatch (s : String) (g : FileGroups)
    (h : groupdict_from_filename s = .ok g) : canonicalMatch s.data = true := by
  obtain ⟨A, Y, M, D, P, mc, dot, ext, restE, hdec, hA, hAw, hY4, hYd, hM2, hMd,
    hD2, hDd, hP, hmc, hdot, hextne, hextw⟩ := groupdict_sound s g h
  have hAlen : A.length - 1 + 1 = A.length := by
    cases A with
    | nil => exact absurd rfl hA
    | cons a l => simp
  rw [canonicalMatch]
  apply List.any_eq_true.mpr
  refine ⟨A.length - 1, List.mem_range.mpr ?_, ?_⟩
  · rw [hdec]
    simp only [List.length_append, List.length_cons]
    omega
  · rw [hdec]
    rw [hAlen, List.take_left, List.drop_left]
    simp only [List.take_left' hY4, List.drop_left' hY4, List.take_left' hM2,
      List.drop_left' hM2, List.take_left' hD2, List.drop_left' hD2, hY4, hM2, hD2,
      List.all_eq_true, Bool.and_eq_true, beq_self_eq_true, and_true, true_and]
    refine ⟨hAw, hYd, hMd, hDd, ?_⟩
    cases ext with
    | nil => exact absurd rfl hextne
    | cons e ext' =>
      rw [matchTail]
      apply List.any_eq_true.mpr
      refine ⟨P.length, List.mem_range.mpr
        (by simp only [List.length_append, List.length_cons]; omega), ?_⟩
      rw [List.take_left, List.drop_left]
      simp only [List.all_eq_true, Bool.and_eq_true, List.cons_append]
      exact ⟨fun c hc => hP c hc, ⟨hmc, bne_iff_ne.mpr hdot⟩,
        hextw e (List.mem_cons_self e ext')⟩

/-- C9 (amended): the regular expression is matched as a prefix and its dot
is an unescaped wildcard; the parse fails with the identifiable
`ValueError` exactly on the strings that do not begin with
word+ `_` 4 digits `-` 2 digits `-` 2 digits `_` digit* `_` digit,
one non-newline character, and a nonempty word run. -/
theorem c9_parse_failure_amended (s : String) (h : canonicalMatch s.data = false) :
    groupdict_from_filename s = .error ("Failed to parse file " ++ s) := by
  cases hg : groupdict_from_filename s with
  | error e =>
    unfold groupdict_from_filename at hg
    dsimp only at hg
    cases hacc : accountLoop ((s.data.takeWhile isWordChar).reverse)
        (s.data.dropWhile isWordChar) with
    | none =>
      rw [hacc] at hg
      injection hg with he
      rw [← he]
    | some g => rw [hacc] at hg; cases hg
  | ok g =>
    exact absurd (groupdict_ok_canonicalMatch s g hg) (by rw [h]; exact Bool.false_ne_true)

/-- Witness for C9 (amended): `"notes.txt"` does not begin with the
pattern, and the parse fails with the expected error. -/
theorem c9_parse_failure_amended_witness :
    groupdict_from_filename "notes.txt" = .error "Failed to parse file notes.txt" :=
  c9_parse_failure_amended "notes.txt" (by decide)

end TwitterDL
